import Mathlib

/-!
Verification of the reward-allocation and vote-reconciliation scripts
(`analyze_voting.py`, `analyze_choices.py`).

Python `decimal.Decimal` values are modelled by `Dec`: a coefficient `c` and a
decimal exponent `e`, denoting the rational value `c * 10 ^ e`.  The default
decimal context (precision 28 significant digits, rounding `ROUND_HALF_EVEN`)
is modelled faithfully: every arithmetic operation rounds its exact result to
at most 28 significant digits using round-half-to-even on the coefficient.
-/

/-- Number of base-10 digits of `n` (`0` has zero digits).  The first argument
is recursion fuel; it is instantiated with `n` itself, which always suffices. -/
def digitsLenAux : ℕ → ℕ → ℕ
  | 0, _ => 0
  | f+1, n => if n = 0 then 0 else digitsLenAux f (n / 10) + 1

/-- Number of base-10 digits of `n`. -/
def digitsLen (n : ℕ) : ℕ := digitsLenAux n n

/-- Context precision of Python's default decimal context: 28 significant digits. -/
def PREC : ℕ := 28

/-- Round-half-to-even integer division `N / D` (the rounding used by the
default decimal context, `ROUND_HALF_EVEN`). -/
def rheNatDiv (N D : ℕ) : ℕ :=
  let q := N / D
  let r := N % D
  if 2 * r < D then q
  else if D < 2 * r then q + 1
  else if q % 2 = 0 then q else q + 1

/-- A Python `Decimal`: coefficient and exponent, value `c * 10 ^ e`. -/
structure Dec where
  c : ℤ
  e : ℤ
  deriving DecidableEq, Repr

/-- The rational value denoted by a `Dec`. -/
noncomputable def Dec.val (d : Dec) : ℚ := (d.c : ℚ) * (10 : ℚ) ^ d.e

/-- Round a `Dec` to the context precision: if the coefficient has more than
`PREC` digits, divide it by the excess power of ten, rounding half to even.
This is how the decimal context rounds exact intermediate results. -/
def reducePrec (d : Dec) : Dec :=
  let n := d.c.natAbs
  if digitsLen n ≤ PREC then d
  else
    let k := digitsLen n - PREC
    let s : ℤ := if 0 ≤ d.c then 1 else -1
    ⟨s * (rheNatDiv n (10 ^ k) : ℤ), d.e + k⟩

/-- Decimal addition under the default context (exact sum at the smaller
exponent, then rounded to the context precision). -/
def addDec (x y : Dec) : Dec :=
  let e := min x.e y.e
  reducePrec ⟨x.c * 10 ^ (x.e - e).toNat + y.c * 10 ^ (y.e - e).toNat, e⟩

/-- Decimal subtraction under the default context. -/
def subDec (x y : Dec) : Dec := addDec x ⟨-y.c, y.e⟩

/-- Decimal multiplication under the default context (exact product, then
rounded to the context precision). -/
def mulDec (x y : Dec) : Dec := reducePrec ⟨x.c * y.c, x.e + y.e⟩

/-- Floor of log10 of the positive rational `n / b` (`n, b ≥ 1`), computed
from digit counts plus one cross-multiplied comparison. -/
def qlog (n b : ℕ) : ℤ :=
  let c : ℤ := (digitsLen n : ℤ) - (digitsLen b : ℤ)
  if b * 10 ^ c.toNat ≤ n * 10 ^ (-c).toNat then c else c - 1

/-- Decimal division under the default context: the exact quotient rounded
half-to-even to `PREC` significant digits.  Division by a zero decimal is
never reached by the script (the zero-total guard runs first). -/
def divDec (x y : Dec) : Dec :=
  if x.c = 0 ∨ y.c = 0 then ⟨0, 0⟩
  else
    let s : ℤ := if (0 ≤ x.c) = (0 ≤ y.c) then 1 else -1
    let n := x.c.natAbs
    let d := y.c.natAbs
    let t : ℤ := (PREC - 1 : ℕ) - qlog n d
    let m := rheNatDiv (n * 10 ^ t.toNat) (d * 10 ^ (-t).toNat)
    ⟨s * m, (x.e - y.e) - t⟩

/-- `Decimal.quantize(Decimal('1'), rounding=ROUND_DOWN)`: truncate the value
toward zero to an integer; `none` models the `InvalidOperation` raised when the
resulting coefficient would exceed the context precision. -/
def quantizeDown (x : Dec) : Option Dec :=
  let t : ℤ :=
    if 0 ≤ x.e then x.c * 10 ^ x.e.toNat
    else (if 0 ≤ x.c then (1 : ℤ) else -1) * ((x.c.natAbs / 10 ^ (-x.e).toNat : ℕ) : ℤ)
  if t.natAbs < 10 ^ PREC then some ⟨t, 0⟩ else none

/-- Value equality with zero (`Decimal.__eq__` against `0`). -/
def Dec.isZero (d : Dec) : Bool := d.c == 0

/-! ### Python dicts as insertion-ordered association lists

Python 3 dicts preserve insertion order; writing to an existing key keeps its
position, writing a fresh key appends.  JSON objects parse to dicts with
distinct keys. -/

/-- `m[k] = v` on an insertion-ordered dict. -/
def dset {α : Type} (m : List (String × α)) (k : String) (v : α) : List (String × α) :=
  if m.any (fun p => p.1 == k) then
    m.map (fun p => if p.1 == k then (k, v) else p)
  else m ++ [(k, v)]

/-- `m.get(k, d)`. -/
def dgetD {α : Type} (m : List (String × α)) (k : String) (d : α) : α :=
  match m.find? (fun p => p.1 == k) with
  | some p => p.2
  | none => d

/-- `m[k]` as an option (`k in m` test plus lookup). -/
def dget? {α : Type} (m : List (String × α)) (k : String) : Option α :=
  (m.find? (fun p => p.1 == k)).map Prod.snd

/-- `str.lower()` (per-character lowering, as on the ASCII addresses used here). -/
def strLower (s : String) : String := ⟨s.data.map Char.toLower⟩

/-! ### Reward Allocator (`analyze_voting.py`) -/

/-- `TokenAmount(amount, symbol)`: a reward of `amount` (a `Decimal`) of the
token whose address is stored in `symbol`. -/
structure TokenAmount where
  amount : Dec
  symbol : String
  deriving DecidableEq, Repr

/-- `GaugeReward(gauge_address, rewards)`. -/
structure GaugeReward where
  gauge_address : String
  rewards : List TokenAmount
  deriving DecidableEq, Repr

/-- The hardcoded `GAUGE_REWARDS` table. -/
def GAUGE_REWARDS : List GaugeReward := [
  ⟨"0x26F7786de3E6D9Bd37Fcf47BE6F2bC455a21b74A",
    [⟨⟨1567927295753080644161, 0⟩, "0x73968b9a57c6E53d41345FD57a6E6ae27d6CDB2F"⟩]⟩,
  ⟨"0x92d956C1F89a2c71efEEB4Bac45d02016bdD2408",
    [⟨⟨16395860810649287194087, 0⟩, "0x8207c1FfC5B6804F6024322CcF34F29c3541Ae26"⟩,
     ⟨⟨31441174855241166, 0⟩, "0x856c4Efb76C1D1AE02e20CEB03A2A6a08b0b8dC3"⟩,
     ⟨⟨59682347986859164296, 0⟩, "0x2A8e1E676Ec238d8A992307B495b45B3fEAa5e86"⟩]⟩,
  ⟨"0xd03BE91b1932715709e18021734fcB91BB431715",
    [⟨⟨7183532567184369398919, 0⟩, "0xD533a949740bb3306d119CC777fa900bA034cd52"⟩]⟩,
  ⟨"0xd8b712d29381748dB89c36BCa0138d7c75866ddF",
    [⟨⟨50918662804680252954517426, 0⟩, "0x090185f2135308BaD17527004364eBcC2D37e5F6"⟩]⟩,
  ⟨"0x156527deF9a2AB4F54C849575f23dC4BB439d9d9",
    [⟨⟨19110055081343485623119, 0⟩, "0xFa2B947eEc368f42195f24F36d2aF29f7c24CeC2"⟩]⟩,
  ⟨"0x7671299eA7B4bbE4f3fD305A994e6443b4be680E",
    [⟨⟨4857524453555506034523, 0⟩, "0x30D20208d987713f46DFD34EF128Bb16C404D10f"⟩]⟩,
  ⟨"0x8f5e52BE9B7BDe850BA13e40284F63f14677058f",
    [⟨⟨273692934018850706018, 0⟩, "0x41D5D79431A913C4aE7d69a668ecdfE5fF9DFB68"⟩]⟩,
  ⟨"0xa48A3c91b062ca06Fd0d0569695432EB066f8c7E",
    [⟨⟨157258798331183261850, 0⟩, "0x41D5D79431A913C4aE7d69a668ecdfE5fF9DFB68"⟩]⟩,
  ⟨"0xd5f2e6612E41bE48461FDBA20061E3c778Fe6EC4",
    [⟨⟨9817135744, 0⟩, "0xA0b86991c6218b36c1d19D4a2e9Eb0cE3606eB48"⟩]⟩,
  ⟨"0x4e227d29b33B77113F84bcC189a6F886755a1f24",
    [⟨⟨1572911252, 0⟩, "0xA0b86991c6218b36c1d19D4a2e9Eb0cE3606eB48"⟩]⟩,
  ⟨"0x9da8420dbeebdfc4902b356017610259ef7eedd8",
    [⟨⟨4993526045722650720985, 0⟩, "0x8ee73c484a26e0a5df2ee2a4960b789967dd0415"⟩]⟩]

/-- `SELF_VOTERS`: users who voted by themselves (to be excluded). -/
def SELF_VOTERS : List String := [
  "0x0d0db6402196fb090cd251a1503b5688a30a6116",
  "0x181ae03a7f3f320ec1255c913c9cb63fce12f77a"]

/-- `FORWARDERS` from the log file. -/
def FORWARDERS : List String := [
  "0x781fea3353d6efbbabc9fac0b4725eff3c77dba7",
  "0x2dbedd2632d831e61eb3fcc6720f072eef9d522d",
  "0xea7c60ba79508855dc3c869dae5b407e6f9fc307",
  "0x544b4979263846cbc2bebf0b99d3812536964da5",
  "0x005ea0be32125792cbff9c6dbaf91a7001e43235",
  "0x8a474fd1b929306a6827630aefeade443128ec68",
  "0xb0e83c2d71a991017e0116d58c5765abc57384af",
  "0x71d92ce08bae1ecb7feea51e1ef0c2540d2b1751",
  "0x0d703ccd7debd7f6f4b0ffb29d2d710d19b09025",
  "0xf3df39bb5d9876e1c89d1a99b0f1e81d9b469f40",
  "0x5275817b74021e97c980e95ede6bbac0d0d6f3a2",
  "0xab8c43e0c7358b92b32816c2250aa3cdbb35555a",
  "0xe90b4aa6002e263031e9a05d50ce8709b9f92fa8",
  "0xadfc26b6520a35c37af3ac5af174249737ec612c",
  "0xcbb24aec855372d1e3078055a399c5ac5f8b39e5",
  "0x72f01e94c94a7ddf11a0e9ceedc19b6763032a9e",
  "0xf930ebbd05ef8b25b1797b9b2109ddc9b0d43063",
  "0xa98be71b3213e21d8014b41ac0309bc9dcca6b9a",
  "0x4c37cb037e379e39ec1e0b6a950a70ff080ea2a8",
  "0x321516d8fe2083eeeba69a1babb8fd7969493b1b",
  "0xfd16c43e6479da7888d73cf76cf9f7691ff67367",
  "0xa87308d1ab723b8595693eee7ae34599ae1af259",
  "0x99ed04c212dd3929e9063bd78b26ef41858cb62c",
  "0xca0073964efe7f9422ceb16901018b1db0cc4785",
  "0xc696481349f868f720fa40af1514362ee87b7458",
  "0xbcd3e2e841cc6140ede73c9ad8ad86ec7e423f52",
  "0xfc913f8f1845e0d12814b3e4d4a9f5a720d62327",
  "0xc53ae7ea9eeb4f55a73bed1008458a83e39c1e75",
  "0x118ad981e3be9a5a16ec7136125425af9c2128f4",
  "0x7e1ff06fc9adaca7383560f3d674c6b686aef67e",
  "0x6206798a980d13d34b7078be0f95e2f4c3146dd0",
  "0x29015220782d9d9b455597fa44e81094257596af",
  "0xcc0b4fb77e21894120699e6d198ca611b082766d",
  "0x3b2b389e6ba7cd904abcf3d213515e652cb60073",
  "0x48d18a882b0be145606a11fce6f8a301256b93fa",
  "0xdfd24769ed77f254959e79ee47e78ae7a21ef4ee",
  "0x158072f5e37df21abf0b8c23ec94d09bab2f024f",
  "0x6ee5bef0c49154f89749ab4057683da6f4429331",
  "0x5467fa63165a3cf5ac6a6b80e3c685e578ba9eca",
  "0x9781f72f15ff9d961f5b0aaf1d93b40c23905f05",
  "0x4dc97041d9f37b3b89d793cbf9b8313f36266e15",
  "0x4082ba9a40e2697b6fcb68ec9b856c19048f99da",
  "0xd4f9fe0039da59e6ddb21bbb6e84e0c9e83d73ed",
  "0x39d04336788300784d10894e84642bcb07dc6434",
  "0x04239c89be7b407fa49bb6f9464b8454f69d3f46",
  "0xf2d3a7ed6eae607dbc47614f2db7cb3676dce6cf",
  "0x4f22b4562647b5b63433cebddf28dfe42fcf2c2d",
  "0xdb6b9c3439a326ce8f816971d540e18089743a5d",
  "0xe3295c57cbe8ff490decc4af8a32e1cbe7f5291f",
  "0x46038e1051dfe73f3b0727e6c2538ffa2c6eae34",
  "0xc4fdde0e46f266367bfab19f662265ab8e341842",
  "0x095cbf84f149f12ce5625ea023ad0133cd84a503",
  "0xfdec357f13b8cc6802a770a57190710ee12257f9",
  "0xf0d48f76b9fc797bdf255136ae6f22bb47a34c35",
  "0x4daf8ce9d729ca4f121381ec4b22123627c1c004",
  "0xd0a8a6dd88bd9405128f178347ecd60faa631164"]

/-- `NON_FORWARDERS` from the log file. -/
def NON_FORWARDERS : List String := [
  "0xe001452bec9e7ac34ca4ecac56e7e95ed9c9aa3b",
  "0x41d7e3da4678ac1f5b7f607c9f6f2140b87adc7c",
  "0xae5eacaf9c6b9111fd53034a602c192a04e082ed",
  "0xaa68ad0bfeee7d0feba2d9d606e62e24a68a4252",
  "0xe73ba8c97be1999705ac74f3e046687a173d4afb",
  "0x3f47a66ada01491c3d364599e5bcbf80a1a67092",
  "0x3ac892a09165516d98ec9c02b95ff840ab4badae",
  "0xc0c21f1ae0c7c194a76168288dd251e0cd551ac4",
  "0xcb397b4e2612ee99a1591cb40db3c837bc1b2c35",
  "0xb82be987cf6f25d0f040ca4567e3dacb4b92aa91",
  "0x16f562fb6587a19e19761654adb195f8bc879b5d",
  "0x425d97d186357d596b5b0b9b36a361aacb20337d",
  "0xfd90eb8fa533c9608037dea32784f1f9656606c0",
  "0x4607a9b0553afd468cf847324764184edc17ad5c",
  "0x359fc0ec3f26cb7242ab362e9bf1db9e79ac0698",
  "0x7d7c4daba895fa235e71307bbc190d8325b8ca41",
  "0x299d7c375add719fb6d0412895439aaca810029a",
  "0xcb76bddbbb87ba2bf76460aa177924cd1e9524b5",
  "0xc88b55a947b42bab0b75c133def68cee5b8e450e"]

/-- One gauge's entry in the aggregated voting data: the `total` field
(read through `Decimal(str(gauge_data.get("total", 0)))`) and the `votes`
mapping in insertion order.  A vote value that is not parseable as a number
(`Decimal(str(vote))` raises `InvalidOperation`) is modelled as `none`. -/
structure GaugeData where
  total : Dec
  votes : List (String × Option Dec)
  deriving DecidableEq, Repr

/-- Events printed by `calculate_gauge_rewards`. -/
inductive LogEvent where
  | warnGaugeNotFound
  | warnNoVotes
  | errVote (voter : String)
  deriving DecidableEq, Repr

/-- The body of the per-voter `try` block for one voter of one reward:
`share = vote / total`; `amount = (total_amount * share).quantize(1, ROUND_DOWN)`.
`none` models the caught `InvalidOperation` (malformed vote value, or a
quantize result exceeding the context precision). -/
def processVoter (total_votes total_amount : Dec) (vote : Option Dec) : Option Dec :=
  match vote with
  | none => none
  | some v => quantizeDown (mulDec total_amount (divDec v total_votes))

/-- One iteration of the voter loop: on success record the share and add it to
`distributed`; on failure print the error and continue. -/
def stepVoter (total_votes total_amount : Dec)
    (st : List (String × Dec) × Dec × List LogEvent) (p : String × Option Dec) :
    List (String × Dec) × Dec × List LogEvent :=
  match processVoter total_votes total_amount p.2 with
  | none => (st.1, st.2.1, st.2.2 ++ [LogEvent.errVote p.1])
  | some amt => (dset st.1 p.1 amt, addDec st.2.1 amt, st.2.2)

/-- The voter loop for one (gauge, reward) pair: returns
(`voter_shares`, `distributed`, printed errors). -/
def voterSharesRaw (total_votes total_amount : Dec) (votes : List (String × Option Dec)) :
    List (String × Dec) × Dec × List LogEvent :=
  votes.foldl (stepVoter total_votes total_amount) ([], ⟨0, 0⟩, [])

/-- The entries `voter_shares` ends up with, in insertion order: one per
successfully processed voter. -/
def succEntries (total_votes total_amount : Dec) (votes : List (String × Option Dec)) :
    List (String × Dec) :=
  votes.filterMap (fun p => (processVoter total_votes total_amount p.2).map (fun a => (p.1, a)))

/-- The error lines printed by the voter loop. -/
def errLog (total_votes total_amount : Dec) (votes : List (String × Option Dec)) :
    List LogEvent :=
  votes.filterMap (fun p =>
    match processVoter total_votes total_amount p.2 with
    | none => some (LogEvent.errVote p.1)
    | some _ => none)

/-- `if voter_shares: voter_shares[last_voter] += total_amount - distributed`
where `last_voter = list(voter_shares.keys())[-1]`. -/
def applyRemainder (total_amount : Dec) (shares : List (String × Dec)) (distributed : Dec) :
    List (String × Dec) :=
  match shares.getLast? with
  | none => shares
  | some lp => dset shares lp.1 (addDec (dgetD shares lp.1 ⟨0, 0⟩) (subDec total_amount distributed))

/-- `voter_shares` for one (gauge, reward) pair after the remainder correction. -/
def rewardShares (total_votes total_amount : Dec) (votes : List (String × Option Dec)) :
    List (String × Dec) :=
  let r := voterSharesRaw total_votes total_amount votes
  applyRemainder total_amount r.1 r.2.1

/-- Fold one reward's `voter_shares` into `voter_rewards`
(`voter_rewards[voter][token] += amount`, with missing keys created as `0`). -/
def addToRewards (vr : List (String × List (String × Dec))) (token : String)
    (shares : List (String × Dec)) : List (String × List (String × Dec)) :=
  shares.foldl (fun m p =>
    let inner := dgetD m p.1 []
    dset m p.1 (dset inner token (addDec (dgetD inner token ⟨0, 0⟩) p.2))) vr

/-- The body of the `for gauge in GAUGE_REWARDS` loop: look the gauge up in the
normalized voting data, skip with a warning when absent or when the total is
zero, and otherwise process every reward of the gauge. -/
def processGauge (norm : List (String × GaugeData))
    (st : List (String × List (String × Dec)) × List LogEvent) (g : GaugeReward) :
    List (String × List (String × Dec)) × List LogEvent :=
  match dget? norm (strLower g.gauge_address) with
  | none => (st.1, st.2 ++ [LogEvent.warnGaugeNotFound])
  | some gd =>
    if gd.total.isZero then (st.1, st.2 ++ [LogEvent.warnNoVotes])
    else
      g.rewards.foldl (fun st2 r =>
        let res := voterSharesRaw gd.total r.amount gd.votes
        (addToRewards st2.1 r.symbol (applyRemainder r.amount res.1 res.2.1),
         st2.2 ++ res.2.2)) st

/-- `{k.lower(): v for k, v in voting_data.items()}`. -/
def normalizeVoting (voting_data : List (String × GaugeData)) : List (String × GaugeData) :=
  voting_data.foldl (fun m p => dset m (strLower p.1) p.2) []

/-- `calculate_gauge_rewards`, returning `voter_rewards` together with the
warning/error lines it prints.  The rewards configuration is a parameter so
the theorems quantify over it; the script instantiates it with `GAUGE_REWARDS`. -/
def calculate_gauge_rewards (cfg : List GaugeReward) (voting_data : List (String × GaugeData)) :
    List (String × List (String × Dec)) × List LogEvent :=
  cfg.foldl (processGauge (normalizeVoting voting_data)) ([], [])

/-- Sum of the values of a `voter_shares` dict (the quantity the conservation
invariant speaks about). -/
noncomputable def sumVals (l : List (String × Dec)) : ℚ :=
  (l.map (fun p => p.2.val)).sum

/-- The four accumulators of `analyze_group_totals`. -/
structure GroupState where
  ft : List (String × Dec)
  nft : List (String × Dec)
  ot : List (String × Dec)
  oa : List (String × List (String × Dec))
  deriving DecidableEq, Repr

/-- `target_totals[token] += amount` (missing key created as `0`). -/
def updTotals (m : List (String × Dec)) (token : String) (amt : Dec) : List (String × Dec) :=
  dset m token (addDec (dgetD m token ⟨0, 0⟩) amt)

/-- One iteration of the `for token, amount in token_amounts.items()` loop:
add to the selected group's totals, and itemize when the voter is in
`other_addresses`. -/
def tokenStep (v : String) (isF isN : Bool) (st : GroupState) (tp : String × Dec) :
    GroupState :=
  let st3 :=
    if isF then { st with ft := updTotals st.ft tp.1 tp.2 }
    else if isN then { st with nft := updTotals st.nft tp.1 tp.2 }
    else { st with ot := updTotals st.ot tp.1 tp.2 }
  if st3.oa.any (fun q => q.1 == v) then
    { st3 with oa := dset st3.oa v (updTotals (dgetD st3.oa v []) tp.1 tp.2) }
  else st3

/-- One iteration of the `for voter, token_amounts in voter_rewards.items()`
loop: lower-case, drop self-voters, classify, and accumulate token amounts. -/
def groupStep (st : GroupState) (p : String × List (String × Dec)) : GroupState :=
  let v := strLower p.1
  if SELF_VOTERS.contains v then st
  else
    let isF := FORWARDERS.contains v
    let isN := NON_FORWARDERS.contains v
    let st1 :=
      if !isF && !isN && !(st.oa.any (fun q => q.1 == v)) then
        { st with oa := st.oa ++ [(v, [])] }
      else st
    p.2.foldl (tokenStep v isF isN) st1

/-- `analyze_group_totals` (the accumulators it builds and then prints). -/
def analyze_group_totals (vr : List (String × List (String × Dec))) : GroupState :=
  vr.foldl groupStep ⟨[], [], [], []⟩

/-! ### Choice Reconciler (`analyze_choices.py`) -/

/-- `TARGET_CHOICES`: the choice IDs to focus on. -/
def TARGET_CHOICES : List ℤ := [139, 408, 129, 27, 424, 179, 363, 384, 97, 167, 533]

/-- One record of a snapshot file: `{"voter": ..., "choice": {...}}`.  The
`choice` mapping sends choice-ID strings to numeric amounts; a record without
a `choice` key is modelled by the empty mapping (the scripts read it through
`.get("choice", {})`). -/
structure VoteRecord where
  voter : String
  choice : List (String × ℚ)
  deriving DecidableEq, Repr

/-- `{item["voter"].lower(): item for item in l}`. -/
def normRecords (l : List VoteRecord) : List (String × VoteRecord) :=
  l.foldl (fun m it => dset m (strLower it.voter) it) []

/-- The `choice` mapping of the record stored under `v` (empty when absent). -/
def choicesOf (m : List (String × VoteRecord)) (v : String) : List (String × ℚ) :=
  match dget? m v with
  | some it => it.choice
  | none => []

/-- `toString` on the numeric choice IDs (Python `str(choice)`). -/
def choiceStr (c : ℤ) : String := toString c

/-- `any(str(choice) in choices for choice in TARGET_CHOICES)`. -/
def hasTargetKey (cs : List (String × ℚ)) : Bool :=
  TARGET_CHOICES.any (fun c => cs.any (fun p => p.1 == choiceStr c))

/-- Python `int(s)` on a choice-mapping key: an optional sign followed by
decimal digits; anything else raises `ValueError` (modelled as `none`). -/
def parseIntM (s : String) : Option ℤ :=
  match s.data with
  | '-' :: rest => (digitsToNat rest).map (fun n => -(n : ℤ))
  | l => (digitsToNat l).map (fun n => (n : ℤ))
where
  digitVal? (ch : Char) : Option ℕ :=
    if '0' ≤ ch ∧ ch ≤ '9' then some (ch.toNat - '0'.toNat) else none
  go : List Char → ℕ → Option ℕ
    | [], acc => some acc
    | ch :: cs, acc =>
      match digitVal? ch with
      | none => none
      | some d => go cs (acc * 10 + d)
  digitsToNat : List Char → Option ℕ
    | [] => none
    | l => go l 0

/-- Insert into a sorted list of strings (used to model Python's `sorted`;
only the contents of the result matter to the claims). -/
def insSorted (x : String) : List String → List String
  | [] => [x]
  | y :: ys => if x < y then x :: y :: ys else y :: insSorted x ys

/-- `sorted(l)` for strings. -/
def sortStr (l : List String) : List String := l.foldr insSorted []

/-- The voters retained for the disappeared-voters report: present in the
normalized pre snapshot, absent from the post one, and holding at least one
key equal to the string form of a target choice ID. -/
def relevantDisappeared (pre post : List VoteRecord) : List String :=
  ((normRecords pre).map Prod.fst).filter (fun v =>
    !((normRecords post).map Prod.fst).contains v
      && hasTargetKey (choicesOf (normRecords pre) v))

/-- The body of the print loop for one retained voter: every key of its
`choice` mapping goes through `int(choice)`, keeping the entries whose parsed
ID is in `TARGET_CHOICES`; a key that does not parse aborts the run (`none`). -/
def collectTracked : List (String × ℚ) → Option (List (String × ℚ))
  | [] => some []
  | p :: rest =>
    match parseIntM p.1 with
    | none => none
    | some n =>
      match collectTracked rest with
      | none => none
      | some tl => some (if TARGET_CHOICES.contains n then p :: tl else tl)

/-- Run an option-valued function over a list, failing as soon as one
element fails (the shape of a print loop that can raise). -/
def optTraverse {α β : Type} (f : α → Option β) : List α → Option (List β)
  | [] => some []
  | a :: l =>
    match f a with
    | none => none
    | some b =>
      match optTraverse f l with
      | none => none
      | some bs => some (b :: bs)

/-- The disappeared-voters report of `analyze_choices`: for each retained
voter (in sorted order) the tracked entries of its pre-snapshot `choice`
mapping; `none` models the uncaught `ValueError` from `int(choice)`. -/
def reportDisappeared (pre post : List VoteRecord) :
    Option (List (String × List (String × ℚ))) :=
  optTraverse
    (fun v => (collectTracked (choicesOf (normRecords pre) v)).map (fun es => (v, es)))
    (sortStr (relevantDisappeared pre post))

/-- `differences` for one voter present in both snapshots: the target choice
IDs whose pre and post amounts (defaulting to 0) differ, with both amounts. -/
def deltasFor (preC postC : List (String × ℚ)) : List (ℤ × ℚ × ℚ) :=
  TARGET_CHOICES.filterMap (fun c =>
    if dgetD preC (choiceStr c) 0 = dgetD postC (choiceStr c) 0 then none
    else some (c, dgetD preC (choiceStr c) 0, dgetD postC (choiceStr c) 0))

/-- `has_target_choices`: some target choice key occurs in either snapshot's
`choice` mapping for this voter. -/
def hasTargetEither (preC postC : List (String × ℚ)) : Bool :=
  TARGET_CHOICES.any (fun c =>
    preC.any (fun p => p.1 == choiceStr c) || postC.any (fun p => p.1 == choiceStr c))

/-- The choice-changes report of `analyze_choices`: for each voter present in
both normalized snapshots (in sorted order) with some target choice present
and a non-empty `differences` list, that list. -/
def reportDeltas (pre post : List VoteRecord) : List (String × List (ℤ × ℚ × ℚ)) :=
  (sortStr (((normRecords pre).map Prod.fst).filter
      (fun v => ((normRecords post).map Prod.fst).contains v))).filterMap (fun v =>
    if !hasTargetEither (choicesOf (normRecords pre) v) (choicesOf (normRecords post) v) then
      none
    else if deltasFor (choicesOf (normRecords pre) v) (choicesOf (normRecords post) v) = [] then
      none
    else
      some (v, deltasFor (choicesOf (normRecords pre) v) (choicesOf (normRecords post) v)))

/-- Modelled from the spec: the per-voter pre-correction amount the spec
prescribes, `floor(reward_amount * (vote_weight / total))` under exact
rational arithmetic.  Used to compare the spec's description against the
decimal-context computation actually performed by the code. -/
noncomputable def specAmount (reward_amount total vote_weight : ℚ) : ℤ :=
  ⌊reward_amount * (vote_weight / total)⌋

/-! ### Arithmetic lemmas about the decimal model -/

theorem digitsLenAux_eq : ∀ (f n : ℕ), n ≤ f →
    digitsLenAux f n = if n = 0 then 0 else Nat.log 10 n + 1 := by
  intro f
  induction f with
  | zero =>
    intro n hn
    have : n = 0 := Nat.le_zero.mp hn
    subst this
    simp [digitsLenAux]
  | succ f ih =>
    intro n hn
    by_cases h0 : n = 0
    · subst h0; simp [digitsLenAux]
    · have hle : n / 10 ≤ f := by
        have : n / 10 < n := Nat.div_lt_self (Nat.pos_of_ne_zero h0) (by norm_num)
        omega
      rw [digitsLenAux, if_neg h0, ih _ hle]
      by_cases h10 : n < 10
      · rw [Nat.div_eq_of_lt h10, if_pos rfl, Nat.log_eq_zero_iff.mpr (Or.inl h10), if_neg h0]
      · have hge : 10 ≤ n := le_of_not_lt h10
        have hne : n / 10 ≠ 0 := by
          have := Nat.div_pos hge (by norm_num : (0:ℕ) < 10)
          omega
        rw [if_neg hne, Nat.log_div_base, if_neg h0]
        have hp : 0 < Nat.log 10 n := Nat.log_pos (by norm_num) hge
        omega

theorem digitsLen_le_iff {n k : ℕ} : digitsLen n ≤ k ↔ n < 10 ^ k := by
  rw [digitsLen, digitsLenAux_eq n n le_rfl]
  by_cases h0 : n = 0
  · subst h0; simp [Nat.pos_pow_of_pos]
  · rw [if_neg h0]
    constructor
    · intro h
      calc n < 10 ^ (Nat.log 10 n + 1) := Nat.lt_pow_succ_log_self (by norm_num) n
        _ ≤ 10 ^ k := Nat.pow_le_pow_right (by norm_num) h
    · intro h
      by_contra hk
      have hkle : k ≤ Nat.log 10 n := by omega
      have h1 : (10:ℕ) ^ k ≤ 10 ^ Nat.log 10 n := Nat.pow_le_pow_right (by norm_num) hkle
      have h2 : (10:ℕ) ^ Nat.log 10 n ≤ n := Nat.pow_log_le_self 10 h0
      omega

theorem reducePrec_eq_self {d : Dec} (h : d.c.natAbs < 10 ^ PREC) : reducePrec d = d := by
  simp only [reducePrec]
  rw [if_pos (digitsLen_le_iff.mpr h)]

theorem reducePrec_c_nonneg {d : Dec} (h : 0 ≤ d.c) : 0 ≤ (reducePrec d).c := by
  simp only [reducePrec]
  by_cases hd : digitsLen d.c.natAbs ≤ PREC
  · simpa [hd] using h
  · rw [if_neg hd, if_pos h]
    simp

theorem addDec_int {x y : Dec} (hx : x.e = 0) (hy : y.e = 0)
    (h : (x.c + y.c).natAbs < 10 ^ PREC) : addDec x y = ⟨x.c + y.c, 0⟩ := by
  have e1 : addDec x y = reducePrec ⟨x.c + y.c, 0⟩ := by
    simp [addDec, hx, hy]
  rw [e1, reducePrec_eq_self h]

theorem subDec_int {x y : Dec} (hx : x.e = 0) (hy : y.e = 0)
    (h : (x.c - y.c).natAbs < 10 ^ PREC) : subDec x y = ⟨x.c - y.c, 0⟩ := by
  have e1 : subDec x y = addDec x ⟨-y.c, y.e⟩ := rfl
  have e2 := @addDec_int x ⟨-y.c, y.e⟩ hx hy (by simpa [sub_eq_add_neg] using h)
  rw [e1, e2]
  simp [sub_eq_add_neg]

theorem Dec.val_exp0 (c : ℤ) : (Dec.mk c 0).val = (c : ℚ) := by
  simp [Dec.val]

theorem divDec_c_nonneg {x y : Dec} (hx : 0 ≤ x.c) (hy : 0 ≤ y.c) :
    0 ≤ (divDec x y).c := by
  simp only [divDec]
  by_cases h0 : x.c = 0 ∨ y.c = 0
  · rw [if_pos h0]
  · rw [if_neg h0, if_pos (propext (iff_of_true hx hy))]
    simp

theorem mulDec_c_nonneg {x y : Dec} (hx : 0 ≤ x.c) (hy : 0 ≤ y.c) :
    0 ≤ (mulDec x y).c :=
  reducePrec_c_nonneg (mul_nonneg hx hy)

theorem quantizeDown_some {x a : Dec} (h : quantizeDown x = some a) :
    a.e = 0 ∧ a.c.natAbs < 10 ^ PREC ∧ (0 ≤ x.c → 0 ≤ a.c) := by
  simp only [quantizeDown] at h
  by_cases he : 0 ≤ x.e
  · rw [if_pos he] at h
    by_cases hg : (x.c * 10 ^ x.e.toNat).natAbs < 10 ^ PREC
    · rw [if_pos hg] at h
      have ha := Option.some.inj h
      subst ha
      exact ⟨rfl, hg, fun hx => mul_nonneg hx (by positivity)⟩
    · rw [if_neg hg] at h
      exact absurd h (by simp)
  · rw [if_neg he] at h
    by_cases hx : 0 ≤ x.c
    · rw [if_pos hx, one_mul] at h
      by_cases hg : ((x.c.natAbs / 10 ^ (-x.e).toNat : ℕ) : ℤ).natAbs < 10 ^ PREC
      · rw [if_pos hg] at h
        have ha := Option.some.inj h
        subst ha
        exact ⟨rfl, hg, fun _ => Int.natCast_nonneg _⟩
      · rw [if_neg hg] at h
        exact absurd h (by simp)
    · rw [if_neg hx, neg_one_mul] at h
      by_cases hg : (-((x.c.natAbs / 10 ^ (-x.e).toNat : ℕ) : ℤ)).natAbs < 10 ^ PREC
      · rw [if_pos hg] at h
        have ha := Option.some.inj h
        subst ha
        exact ⟨rfl, hg, fun hc => absurd hc hx⟩
      · rw [if_neg hg] at h
        exact absurd h (by simp)

theorem processVoter_some {tv ta : Dec} {w a : Dec}
    (hta : 0 ≤ ta.c) (hw : 0 ≤ w.c) (htv : 0 ≤ tv.c)
    (h : processVoter tv ta (some w) = some a) :
    a.e = 0 ∧ a.c.natAbs < 10 ^ PREC ∧ 0 ≤ a.c := by
  have h' : quantizeDown (mulDec ta (divDec w tv)) = some a := h
  have hnn : 0 ≤ (mulDec ta (divDec w tv)).c :=
    mulDec_c_nonneg hta (divDec_c_nonneg hw htv)
  obtain ⟨h1, h2, h3⟩ := quantizeDown_some h'
  exact ⟨h1, h2, h3 hnn⟩

/-! ### Dictionary lemmas -/

theorem dset_fresh {α : Type} {m : List (String × α)} {k : String} (v : α)
    (h : k ∉ m.map Prod.fst) : dset m k v = m ++ [(k, v)] := by
  have hany : m.any (fun p => p.1 == k) = false := by
    rw [List.any_eq_false]
    intro p hp
    simp only [beq_iff_eq]
    intro he
    exact h (he ▸ List.mem_map_of_mem Prod.fst hp)
  simp [dset, hany]

theorem dgetD_of_mem {α : Type} {m : List (String × α)} {p : String × α} (d : α)
    (hnd : (m.map Prod.fst).Nodup) (hp : p ∈ m) : dgetD m p.1 d = p.2 := by
  induction m with
  | nil => cases hp
  | cons q m ih =>
    rw [List.map_cons, List.nodup_cons] at hnd
    rcases List.mem_cons.mp hp with rfl | hpm
    · simp [dgetD, List.find?_cons_of_pos]
    · have hne : (q.1 == p.1) = false := by
        rw [beq_eq_false_iff_ne]
        intro he
        exact hnd.1 (he ▸ List.mem_map_of_mem Prod.fst hpm)
      have ih' := ih hnd.2 hpm
      unfold dgetD at ih' ⊢
      rw [List.find?_cons_of_neg _ (by simp [hne])]
      exact ih'

theorem dset_concat_self {α : Type} {init : List (String × α)} {k : String} {a : α} (v : α)
    (h : k ∉ init.map Prod.fst) : dset (init ++ [(k, a)]) k v = init ++ [(k, v)] := by
  have hany : (init ++ [(k, a)]).any (fun p => p.1 == k) = true := by
    rw [List.any_eq_true]
    exact ⟨(k, a), by simp, by simp⟩
  rw [dset, if_pos hany, List.map_append]
  congr 1
  · calc init.map (fun p => if p.1 == k then (k, v) else p)
        = init.map id := by
          apply List.map_congr_left
          intro p hp
          have hne : ¬(p.1 == k) = true := by
            simp only [beq_iff_eq]
            intro he
            exact h (he ▸ List.mem_map_of_mem Prod.fst hp)
          simp [hne]
      _ = init := List.map_id init
  · simp

theorem mem_keys_dset {α : Type} {m : List (String × α)} {k k' : String} {v : α}
    (h : k' ∈ (dset m k v).map Prod.fst) : k' ∈ m.map Prod.fst ∨ k' = k := by
  unfold dset at h
  by_cases hany : m.any (fun p => p.1 == k) = true
  · rw [if_pos hany, List.map_map] at h
    obtain ⟨p, hp, hpk⟩ := List.mem_map.mp h
    by_cases hb : (p.1 == k) = true
    · right
      simp only [Function.comp, hb, if_pos] at hpk
      exact hpk.symm ▸ rfl
    · left
      simp only [Function.comp, hb, if_neg, ite_false] at hpk
      exact hpk ▸ List.mem_map_of_mem Prod.fst hp
  · rw [if_neg hany, List.map_append] at h
    rcases List.mem_append.mp h with h1 | h2
    · exact Or.inl h1
    · right
      simpa using h2

/-! ### The voter loop, structurally -/

theorem foldl_stepVoter (tv ta : Dec) :
    ∀ (votes : List (String × Option Dec)) (s0 : List (String × Dec)) (d0 : Dec)
      (lg0 : List LogEvent),
      (s0.map Prod.fst ++ votes.map Prod.fst).Nodup →
      votes.foldl (stepVoter tv ta) (s0, d0, lg0) =
        (s0 ++ succEntries tv ta votes,
         ((succEntries tv ta votes).map Prod.snd).foldl addDec d0,
         lg0 ++ errLog tv ta votes) := by
  intro votes
  induction votes with
  | nil =>
    intro s0 d0 lg0 _
    simp [succEntries, errLog]
  | cons p votes ih =>
    intro s0 d0 lg0 hnd
    rw [List.foldl_cons]
    cases hq : processVoter tv ta p.2 with
    | none =>
      have hstep : stepVoter tv ta (s0, d0, lg0) p = (s0, d0, lg0 ++ [LogEvent.errVote p.1]) := by
        simp [stepVoter, hq]
      have hnd' : (s0.map Prod.fst ++ votes.map Prod.fst).Nodup := by
        refine List.Nodup.sublist ?_ hnd
        exact List.Sublist.append_left (List.sublist_cons_self _ _) _
      rw [hstep, ih s0 d0 _ hnd']
      simp [succEntries, errLog, List.filterMap_cons, hq]
    | some a =>
      have hstep : stepVoter tv ta (s0, d0, lg0) p = (dset s0 p.1 a, addDec d0 a, lg0) := by
        simp [stepVoter, hq]
      have hfresh : p.1 ∉ s0.map Prod.fst := by
        rcases List.nodup_append.mp hnd with ⟨_, _, hdisj⟩
        intro hmem
        exact hdisj hmem (by simp)
      have hnd' : ((s0 ++ [(p.1, a)]).map Prod.fst ++ votes.map Prod.fst).Nodup := by
        simpa [List.map_append, List.append_assoc] using hnd
      rw [hstep, dset_fresh a hfresh, ih (s0 ++ [(p.1, a)]) (addDec d0 a) lg0 hnd']
      simp [succEntries, errLog, List.filterMap_cons, hq, List.append_assoc]

theorem foldl_addDec_int :
    ∀ (l : List Dec) (d0 : Dec), d0.e = 0 →
      (∀ a ∈ l, a.e = 0 ∧ 0 ≤ a.c) → 0 ≤ d0.c →
      d0.c + (l.map Dec.c).sum < ((10 ^ PREC : ℕ) : ℤ) →
      l.foldl addDec d0 = ⟨d0.c + (l.map Dec.c).sum, 0⟩ := by
  intro l
  induction l with
  | nil =>
    intro d0 h0 _ _ _
    cases d0
    simp_all
  | cons a l ih =>
    intro d0 h0 hall hd0 hsum
    obtain ⟨hae, hac⟩ := hall a (by simp)
    have hrest : 0 ≤ (l.map Dec.c).sum := by
      apply List.sum_nonneg
      intro x hx
      obtain ⟨b, hb, rfl⟩ := List.mem_map.mp hx
      exact (hall b (List.mem_cons_of_mem a hb)).2
    simp only [List.map_cons, List.sum_cons] at hsum
    have hbound : (d0.c + a.c).natAbs < 10 ^ PREC := by omega
    have hstep : addDec d0 a = ⟨d0.c + a.c, 0⟩ := addDec_int h0 hae hbound
    have hih := ih ⟨d0.c + a.c, 0⟩ rfl (fun b hb => hall b (List.mem_cons_of_mem a hb))
      (by show (0:ℤ) ≤ d0.c + a.c; omega)
      (by show d0.c + a.c + (l.map Dec.c).sum < ((10 ^ PREC : ℕ) : ℤ); omega)
    rw [List.foldl_cons, hstep, hih]
    simp only [List.map_cons, List.sum_cons]
    congr 1
    ring

theorem succEntries_amounts {tv ta : Dec} {votes : List (String × Option Dec)}
    (hta : 0 ≤ ta.c) (htv : 0 ≤ tv.c)
    (hw : ∀ p ∈ votes, ∀ w, p.2 = some w → 0 ≤ w.c) :
    ∀ q ∈ succEntries tv ta votes, q.2.e = 0 ∧ q.2.c.natAbs < 10 ^ PREC ∧ 0 ≤ q.2.c := by
  intro q hq
  obtain ⟨p, hp, hpq⟩ := List.mem_filterMap.mp hq
  cases hv : p.2 with
  | none =>
    rw [hv] at hpq
    simp [processVoter] at hpq
  | some w =>
    rw [hv] at hpq
    cases ha : processVoter tv ta (some w) with
    | none =>
      rw [ha] at hpq
      simp at hpq
    | some a =>
      rw [ha] at hpq
      simp only [Option.map_some'] at hpq
      obtain rfl := Option.some.inj hpq
      exact processVoter_some hta (hw p hp w hv) htv ha

theorem succEntries_keys_sublist (tv ta : Dec) (votes : List (String × Option Dec)) :
    ((succEntries tv ta votes).map Prod.fst).Sublist (votes.map Prod.fst) := by
  induction votes with
  | nil => simp [succEntries]
  | cons p votes ih =>
    cases hq : processVoter tv ta p.2 with
    | none =>
      have he : succEntries tv ta (p :: votes) = succEntries tv ta votes := by
        simp [succEntries, List.filterMap_cons, hq]
      rw [he, List.map_cons]
      exact ih.cons p.1
    | some a =>
      have he : succEntries tv ta (p :: votes) = (p.1, a) :: succEntries tv ta votes := by
        simp [succEntries, List.filterMap_cons, hq]
      rw [he, List.map_cons, List.map_cons]
      exact ih.cons₂ p.1

theorem sumVals_exp0 {l : List (String × Dec)} (h : ∀ q ∈ l, q.2.e = 0) :
    sumVals l = (((l.map (fun q => q.2.c)).sum : ℤ) : ℚ) := by
  induction l with
  | nil => simp [sumVals]
  | cons q l ih =>
    have hq := h q (by simp)
    have ih' := ih (fun r hr => h r (List.mem_cons_of_mem q hr))
    simp only [sumVals, List.map_cons, List.sum_cons] at ih' ⊢
    rw [ih']
    have hv : q.2.val = (q.2.c : ℚ) := by
      rw [Dec.val, hq]
      simp
    rw [hv]
    push_cast
    ring

/-- Core conservation lemma: whenever at least one voter is processed
successfully, each coefficient is in range, and the configured amount is an
in-range nonnegative integer, the remainder correction rewrites the last
recorded share so that the values of `voter_shares` sum to the reward amount
exactly. -/
theorem rewardShares_spec {tv ta : Dec} {votes : List (String × Option Dec)}
    (hnd : (votes.map Prod.fst).Nodup)
    (htv : 0 ≤ tv.c) (htae : ta.e = 0) (htac : 0 ≤ ta.c) (htab : ta.c.natAbs < 10 ^ PREC)
    (hw : ∀ p ∈ votes, ∀ w, p.2 = some w → 0 ≤ w.c)
    (hne : succEntries tv ta votes ≠ [])
    (hsum : ((succEntries tv ta votes).map (fun q => q.2.c)).sum < ((10 ^ PREC : ℕ) : ℤ)) :
    ∃ init b,
      succEntries tv ta votes = init ++ [b] ∧
      rewardShares tv ta votes =
        init ++ [(b.1,
          (⟨b.2.c + (ta.c - ((succEntries tv ta votes).map (fun q => q.2.c)).sum), 0⟩ : Dec))] ∧
      sumVals (rewardShares tv ta votes) = ta.val := by
  have hamts := succEntries_amounts htac htv hw
  have hraw : voterSharesRaw tv ta votes =
      (succEntries tv ta votes,
       ((succEntries tv ta votes).map Prod.snd).foldl addDec ⟨0, 0⟩,
       errLog tv ta votes) := by
    have h0 := foldl_stepVoter tv ta votes [] ⟨0, 0⟩ [] (by simpa using hnd)
    simpa [voterSharesRaw] using h0
  have hmapmap : ((succEntries tv ta votes).map Prod.snd).map Dec.c
      = (succEntries tv ta votes).map (fun q => q.2.c) := by
    rw [List.map_map]
    rfl
  have hsum0 : 0 ≤ ((succEntries tv ta votes).map (fun q => q.2.c)).sum := by
    apply List.sum_nonneg
    intro x hx
    obtain ⟨q, hq, rfl⟩ := List.mem_map.mp hx
    exact (hamts q hq).2.2
  have hdist : ((succEntries tv ta votes).map Prod.snd).foldl addDec ⟨0, 0⟩ =
      ⟨((succEntries tv ta votes).map (fun q => q.2.c)).sum, 0⟩ := by
    have h1 := foldl_addDec_int ((succEntries tv ta votes).map Prod.snd) ⟨0, 0⟩ rfl
      (fun a ha => by
        obtain ⟨q, hq, rfl⟩ := List.mem_map.mp ha
        exact ⟨(hamts q hq).1, (hamts q hq).2.2⟩)
      le_rfl
      (by rw [hmapmap]; show (0 : ℤ) + _ < _; omega)
    rw [h1, hmapmap]
    norm_num
  obtain hSnil | ⟨init, b, hdec⟩ := List.eq_nil_or_concat (succEntries tv ta votes)
  · exact absurd hSnil hne
  rw [List.concat_eq_append] at hdec
  have hknd : ((succEntries tv ta votes).map Prod.fst).Nodup :=
    (succEntries_keys_sublist tv ta votes).nodup hnd
  have hbfresh : b.1 ∉ init.map Prod.fst := by
    have h2 := hknd
    rw [hdec, List.map_append, List.nodup_append] at h2
    intro hmem
    exact h2.2.2 hmem (by simp)
  have hlast : (succEntries tv ta votes).getLast? = some b := by
    rw [hdec]
    exact List.getLast?_concat init
  have hbmem : b ∈ succEntries tv ta votes := by
    rw [hdec]
    simp
  have hget : dgetD (succEntries tv ta votes) b.1 ⟨0, 0⟩ = b.2 :=
    dgetD_of_mem _ hknd hbmem
  have hb := hamts b hbmem
  have hble : b.2.c ≤ ((succEntries tv ta votes).map (fun q => q.2.c)).sum := by
    apply List.single_le_sum
    · intro x hx
      obtain ⟨q, hq, rfl⟩ := List.mem_map.mp hx
      exact (hamts q hq).2.2
    · exact List.mem_map_of_mem _ hbmem
  have hsub : subDec ta ⟨((succEntries tv ta votes).map (fun q => q.2.c)).sum, 0⟩ =
      ⟨ta.c - ((succEntries tv ta votes).map (fun q => q.2.c)).sum, 0⟩ :=
    subDec_int htae rfl
      (by show (ta.c - ((succEntries tv ta votes).map (fun q => q.2.c)).sum).natAbs < 10 ^ PREC
          omega)
  have hadd : addDec b.2
      ⟨ta.c - ((succEntries tv ta votes).map (fun q => q.2.c)).sum, 0⟩ =
      ⟨b.2.c + (ta.c - ((succEntries tv ta votes).map (fun q => q.2.c)).sum), 0⟩ :=
    addDec_int hb.1 rfl
      (by show (b.2.c +
            (ta.c - ((succEntries tv ta votes).map (fun q => q.2.c)).sum)).natAbs < 10 ^ PREC
          omega)
  have happ : applyRemainder ta (succEntries tv ta votes)
      ⟨((succEntries tv ta votes).map (fun q => q.2.c)).sum, 0⟩ =
      dset (succEntries tv ta votes) b.1
        (addDec (dgetD (succEntries tv ta votes) b.1 ⟨0, 0⟩)
          (subDec ta ⟨((succEntries tv ta votes).map (fun q => q.2.c)).sum, 0⟩)) := by
    unfold applyRemainder
    rw [hlast]
  have hrs : rewardShares tv ta votes =
      init ++ [(b.1,
        (⟨b.2.c + (ta.c - ((succEntries tv ta votes).map (fun q => q.2.c)).sum), 0⟩ : Dec))] := by
    show applyRemainder ta (voterSharesRaw tv ta votes).1 (voterSharesRaw tv ta votes).2.1 = _
    rw [hraw]
    show applyRemainder ta (succEntries tv ta votes) (_ : Dec) = _
    rw [hdist, happ, hget, hsub, hadd, hdec]
    exact dset_concat_self _ hbfresh
  refine ⟨init, b, hdec, hrs, ?_⟩
  rw [hrs]
  have hinit0 : ∀ q ∈ init ++ [(b.1,
      (⟨b.2.c + (ta.c - ((succEntries tv ta votes).map (fun q => q.2.c)).sum), 0⟩ : Dec))],
      q.2.e = 0 := by
    intro q hq
    rcases List.mem_append.mp hq with h1 | h2
    · exact (hamts q (by rw [hdec]; exact List.mem_append_left _ h1)).1
    · rw [List.mem_singleton.mp h2]
  have hsplit : ((succEntries tv ta votes).map (fun q => q.2.c)).sum =
      (init.map (fun q => q.2.c)).sum + b.2.c := by
    rw [hdec, List.map_append, List.sum_append]
    simp
  rw [sumVals_exp0 hinit0, List.map_append, List.sum_append]
  simp only [List.map_cons, List.map_nil, List.sum_cons, List.sum_nil, add_zero]
  have hint : (init.map (fun q => q.2.c)).sum +
      (b.2.c + (ta.c - ((succEntries tv ta votes).map (fun q => q.2.c)).sum)) = ta.c := by
    omega
  rw [hint, Dec.val, htae]
  simp

theorem nodup_keys_eq {α : Type} {l : List (String × α)} (hnd : (l.map Prod.fst).Nodup)
    {p q : String × α} (hp : p ∈ l) (hq : q ∈ l) (h : p.1 = q.1) : p = q := by
  induction l with
  | nil => cases hp
  | cons r l ih =>
    rw [List.map_cons, List.nodup_cons] at hnd
    rcases List.mem_cons.mp hp with rfl | hp' <;> rcases List.mem_cons.mp hq with rfl | hq'
    · rfl
    · exact absurd (by rw [h]; exact List.mem_map_of_mem Prod.fst hq') hnd.1
    · exact absurd (by rw [← h]; exact List.mem_map_of_mem Prod.fst hp') hnd.1
    · exact ih hnd.2 hp' hq'

theorem succEntries_all_some {tv ta : Dec} {votes : List (String × Option Dec)}
    (h : ∀ p ∈ votes, (processVoter tv ta p.2).isSome = true) :
    succEntries tv ta votes =
      votes.map (fun p => (p.1, (processVoter tv ta p.2).getD ⟨0, 0⟩)) := by
  induction votes with
  | nil => simp [succEntries]
  | cons p votes ih =>
    have hp := h p (by simp)
    cases hq : processVoter tv ta p.2 with
    | none => rw [hq] at hp; simp at hp
    | some a =>
      have ih' := ih (fun r hr => h r (List.mem_cons_of_mem p hr))
      simp [succEntries, List.filterMap_cons, hq] at ih' ⊢
      exact ih'

theorem errLog_shape (tv ta : Dec) (votes : List (String × Option Dec)) :
    ∀ e ∈ errLog tv ta votes, ∃ v, e = LogEvent.errVote v := by
  intro e he
  obtain ⟨p, _, hpe⟩ := List.mem_filterMap.mp he
  cases hq : processVoter tv ta p.2 with
  | none =>
    rw [hq] at hpe
    exact ⟨p.1, (Option.some.inj hpe).symm⟩
  | some a =>
    rw [hq] at hpe
    simp at hpe

theorem foldl_stepVoter_allNone {tv ta : Dec} :
    ∀ {votes : List (String × Option Dec)}, (∀ p ∈ votes, p.2 = none) →
      ∀ (s0 : List (String × Dec)) (d0 : Dec) (lg0 : List LogEvent),
      votes.foldl (stepVoter tv ta) (s0, d0, lg0) = (s0, d0, lg0 ++ errLog tv ta votes) := by
  intro votes
  induction votes with
  | nil =>
    intro _ s0 d0 lg0
    simp [errLog]
  | cons p votes ih =>
    intro h s0 d0 lg0
    have hp : p.2 = none := h p (by simp)
    have hq : processVoter tv ta p.2 = none := by rw [hp]; rfl
    have hstep : stepVoter tv ta (s0, d0, lg0) p = (s0, d0, lg0 ++ [LogEvent.errVote p.1]) := by
      simp [stepVoter, hq]
    rw [List.foldl_cons, hstep, ih (fun r hr => h r (List.mem_cons_of_mem p hr))]
    simp [errLog, List.filterMap_cons, hq]

theorem succEntries_allNone {tv ta : Dec} {votes : List (String × Option Dec)}
    (h : ∀ p ∈ votes, p.2 = none) : succEntries tv ta votes = [] := by
  induction votes with
  | nil => rfl
  | cons p votes ih =>
    have hp : p.2 = none := h p (by simp)
    have hq : processVoter tv ta p.2 = none := by rw [hp]; rfl
    have hstep : succEntries tv ta (p :: votes) = succEntries tv ta votes := by
      unfold succEntries
      rw [List.filterMap_cons, hq]
      rfl
    rw [hstep]
    exact ih (fun r hr => h r (List.mem_cons_of_mem p hr))

/-! ### Claim C1 -/

/-- C1, counterexample: a (gauge, token) pair that is fully processed (the
gauge is found and its total `5` is non-zero, so no warning is printed and
nothing is skipped), has no malformed voter entries (its votes mapping is
empty), yet the sum of the computed per-voter shares is `0`, not the
configured amount `10`.  So the claimed equality does not hold for every
processed pair with positive total and no malformed entries. -/
theorem C1_counterexample :
    calculate_gauge_rewards [⟨"0xG", [⟨⟨10, 0⟩, "tok"⟩]⟩] [("0xg", ⟨⟨5, 0⟩, []⟩)] = ([], []) ∧
    rewardShares ⟨5, 0⟩ ⟨10, 0⟩ [] = [] ∧
    sumVals (rewardShares ⟨5, 0⟩ ⟨10, 0⟩ []) = 0 ∧
    (Dec.mk 10 0).val = 10 ∧ (0 : ℚ) ≠ 10 := by
  have h2 : rewardShares ⟨5, 0⟩ ⟨10, 0⟩ [] = [] := by decide
  refine ⟨by decide, h2, ?_, ?_, by norm_num⟩
  · rw [h2]; simp [sumVals]
  · simp [Dec.val]

/-- C1 (amended): for a (gauge, token) pair with positive total, distinct
voter keys, no malformed voter entries, all vote weights nonnegative, the
configured amount a nonnegative integer within the 28-digit context
precision, at least one successfully processed voter, and the truncated
amounts summing below the precision bound, the values of the computed voter
shares sum exactly to the configured reward amount — the equality being
established by the remainder correction. -/
theorem C1_conservation {tv ta : Dec} {votes : List (String × Option Dec)}
    (hnd : (votes.map Prod.fst).Nodup)
    (htv : 0 < tv.c)
    (htae : ta.e = 0) (htac : 0 ≤ ta.c) (htab : ta.c.natAbs < 10 ^ PREC)
    (_hparse : ∀ p ∈ votes, p.2.isSome = true)
    (hwnn : ∀ p ∈ votes, 0 ≤ (p.2.getD ⟨0, 0⟩).c)
    (hne : succEntries tv ta votes ≠ [])
    (hsum : ((succEntries tv ta votes).map (fun q => q.2.c)).sum < ((10 ^ PREC : ℕ) : ℤ)) :
    sumVals (rewardShares tv ta votes) = ta.val := by
  have hw : ∀ p ∈ votes, ∀ w, p.2 = some w → 0 ≤ w.c := by
    intro p hp w hpw
    have := hwnn p hp
    rw [hpw] at this
    simpa using this
  obtain ⟨_, _, _, _, hval⟩ :=
    rewardShares_spec hnd (le_of_lt htv) htae htac htab hw hne hsum
  exact hval

/-- C1 witness: the amended conservation statement instantiated at
total = 100, reward = 10, weights [50, 30, 20]. -/
theorem C1_witness :
    ((([("a", some (⟨50, 0⟩ : Dec)), ("b", some ⟨30, 0⟩), ("c", some ⟨20, 0⟩)]).map
        Prod.fst).Nodup) ∧
    (0 : ℤ) < (Dec.mk 100 0).c ∧
    succEntries ⟨100, 0⟩ ⟨10, 0⟩
      [("a", some ⟨50, 0⟩), ("b", some ⟨30, 0⟩), ("c", some ⟨20, 0⟩)] ≠ [] ∧
    sumVals (rewardShares ⟨100, 0⟩ ⟨10, 0⟩
      [("a", some ⟨50, 0⟩), ("b", some ⟨30, 0⟩), ("c", some ⟨20, 0⟩)]) = (Dec.mk 10 0).val :=
  ⟨by decide, by decide, by decide,
    C1_conservation (by decide) (by decide) rfl (by decide) (by decide) (by decide)
      (by decide) (by decide) (by decide)⟩

/-! ### Claim C2 -/

/-- C2, counterexample: with total = 1, reward = 1 and two voters of weight
`9999999999999999999999999999` (28 nines), the truncated shares are the
weights themselves, but the running `distributed` total rounds to 28
significant digits when the two 28-digit amounts are added, and the
remainder correction therefore does not add `reward − (sum of truncated
amounts)` to the last voter: the last voter ends at `-10^28`, while the
claimed rule predicts `9999999999999999999999999999 + (1 − 2·9999999999999999999999999999)
= -9999999999999999999999999998`. -/
theorem C2_counterexample :
    rewardShares ⟨1, 0⟩ ⟨1, 0⟩
        [("a", some ⟨9999999999999999999999999999, 0⟩),
         ("b", some ⟨9999999999999999999999999999, 0⟩)]
      = [("a", ⟨9999999999999999999999999999, 0⟩), ("b", ⟨-1000000000000000000000000000, 1⟩)] ∧
    succEntries ⟨1, 0⟩ ⟨1, 0⟩
        [("a", some ⟨9999999999999999999999999999, 0⟩),
         ("b", some ⟨9999999999999999999999999999, 0⟩)]
      = [("a", ⟨9999999999999999999999999999, 0⟩), ("b", ⟨9999999999999999999999999999, 0⟩)] ∧
    (Dec.mk (-1000000000000000000000000000) 1).val ≠
      (Dec.mk 9999999999999999999999999999 0).val +
        ((Dec.mk 1 0).val -
          ((Dec.mk 9999999999999999999999999999 0).val +
           (Dec.mk 9999999999999999999999999999 0).val)) := by
  refine ⟨by decide, by decide, ?_⟩
  simp only [Dec.val]
  norm_num

/-- C2 (amended): under the same context-precision side conditions as C1
(and with every voter processed successfully), after truncating every
voter's share the difference between the configured reward amount and the
sum of the truncated amounts is added to the share of the voter enumerated
last in the insertion order of the per-gauge vote-weight collection. -/
theorem C2_remainder_last {tv ta : Dec} {votes : List (String × Option Dec)}
    (hnd : (votes.map Prod.fst).Nodup)
    (htv : 0 < tv.c)
    (htae : ta.e = 0) (htac : 0 ≤ ta.c) (htab : ta.c.natAbs < 10 ^ PREC)
    (hwnn : ∀ p ∈ votes, 0 ≤ (p.2.getD ⟨0, 0⟩).c)
    (hall : ∀ p ∈ votes, (processVoter tv ta p.2).isSome = true)
    (hne : votes ≠ [])
    (hsum : ((succEntries tv ta votes).map (fun q => q.2.c)).sum < ((10 ^ PREC : ℕ) : ℤ)) :
    ∃ init b, succEntries tv ta votes = init ++ [b] ∧
      (votes.map Prod.fst).getLast? = some b.1 ∧
      rewardShares tv ta votes =
        init ++ [(b.1,
          (⟨b.2.c + (ta.c - ((succEntries tv ta votes).map (fun q => q.2.c)).sum), 0⟩ : Dec))] ∧
      (⟨b.2.c + (ta.c - ((succEntries tv ta votes).map (fun q => q.2.c)).sum), 0⟩ : Dec).val =
        b.2.val + (ta.val - sumVals (succEntries tv ta votes)) := by
  have hw : ∀ p ∈ votes, ∀ w, p.2 = some w → 0 ≤ w.c := by
    intro p hp w hpw
    have := hwnn p hp
    rw [hpw] at this
    simpa using this
  have hneS : succEntries tv ta votes ≠ [] := by
    cases votes with
    | nil => exact absurd rfl hne
    | cons p votes =>
      have hp := hall p (by simp)
      cases hq : processVoter tv ta p.2 with
      | none => rw [hq] at hp; simp at hp
      | some a => simp [succEntries, List.filterMap_cons, hq]
  obtain ⟨init, b, hdec, hrs, _⟩ :=
    rewardShares_spec hnd (le_of_lt htv) htae htac htab hw hneS hsum
  have hamts := succEntries_amounts htac (le_of_lt htv) hw
  have hkeys : (succEntries tv ta votes).map Prod.fst = votes.map Prod.fst := by
    rw [succEntries_all_some hall, List.map_map]
    exact List.map_congr_left (fun p _ => rfl)
  have hlastkey : (votes.map Prod.fst).getLast? = some b.1 := by
    rw [← hkeys, hdec, List.map_append]
    exact List.getLast?_concat _
  refine ⟨init, b, hdec, hlastkey, hrs, ?_⟩
  have hb2 : b.2.e = 0 := (hamts b (by rw [hdec]; simp)).1
  have hse : ∀ q ∈ succEntries tv ta votes, q.2.e = 0 := fun q hq => (hamts q hq).1
  have h1 := Dec.val_exp0
    (b.2.c + (ta.c - ((succEntries tv ta votes).map (fun q => q.2.c)).sum))
  have h2 : b.2.val = (b.2.c : ℚ) := by rw [Dec.val, hb2]; simp
  have h3 : ta.val = (ta.c : ℚ) := by rw [Dec.val, htae]; simp
  rw [h1, h2, h3, sumVals_exp0 hse]
  push_cast
  ring

/-- C2 witness: the amended rule applied at total = 3, reward = 10, weights
[1, 1, 1], together with the resulting concrete shares [3, 3, 4] (the third
voter, last in insertion order, receives the remainder 10 − 9 = 1). -/
theorem C2_witness :
    (∃ init b,
      succEntries ⟨3, 0⟩ ⟨10, 0⟩
        [("a", some ⟨1, 0⟩), ("b", some ⟨1, 0⟩), ("c", some ⟨1, 0⟩)] = init ++ [b] ∧
      (([("a", some (⟨1, 0⟩ : Dec)), ("b", some ⟨1, 0⟩), ("c", some ⟨1, 0⟩)]).map
          Prod.fst).getLast? = some b.1 ∧
      rewardShares ⟨3, 0⟩ ⟨10, 0⟩
        [("a", some ⟨1, 0⟩), ("b", some ⟨1, 0⟩), ("c", some ⟨1, 0⟩)] =
        init ++ [(b.1,
          (⟨b.2.c + ((Dec.mk 10 0).c -
            ((succEntries ⟨3, 0⟩ ⟨10, 0⟩
              [("a", some ⟨1, 0⟩), ("b", some ⟨1, 0⟩), ("c", some ⟨1, 0⟩)]).map
                (fun q => q.2.c)).sum), 0⟩ : Dec))] ∧
      (⟨b.2.c + ((Dec.mk 10 0).c -
            ((succEntries ⟨3, 0⟩ ⟨10, 0⟩
              [("a", some ⟨1, 0⟩), ("b", some ⟨1, 0⟩), ("c", some ⟨1, 0⟩)]).map
                (fun q => q.2.c)).sum), 0⟩ : Dec).val =
        b.2.val + ((Dec.mk 10 0).val - sumVals (succEntries ⟨3, 0⟩ ⟨10, 0⟩
          [("a", some ⟨1, 0⟩), ("b", some ⟨1, 0⟩), ("c", some ⟨1, 0⟩)]))) ∧
    rewardShares ⟨3, 0⟩ ⟨10, 0⟩
        [("a", some ⟨1, 0⟩), ("b", some ⟨1, 0⟩), ("c", some ⟨1, 0⟩)]
      = [("a", ⟨3, 0⟩), ("b", ⟨3, 0⟩), ("c", ⟨4, 0⟩)] :=
  ⟨C2_remainder_last (by decide) (by decide) rfl (by decide) (by decide) (by decide)
      (by decide) (by decide) (by decide),
   by decide⟩

/-! ### Claim C3 -/

/-- C3, counterexample: with total = 2, reward = 10 and voters
[a ↦ 1, b ↦ malformed, c ↦ 1], voter b's error is caught and logged and b is
skipped — but the remainder correction still runs over the successfully
processed voters, so the computed shares [5, 5] sum to exactly the configured
amount 10: the exact-conservation invariant is NOT broken by the skipped
voter, contrary to the claim's final clause. -/
theorem C3_counterexample :
    errLog ⟨2, 0⟩ ⟨10, 0⟩ [("a", some ⟨1, 0⟩), ("b", none), ("c", some ⟨1, 0⟩)]
      = [LogEvent.errVote "b"] ∧
    rewardShares ⟨2, 0⟩ ⟨10, 0⟩ [("a", some ⟨1, 0⟩), ("b", none), ("c", some ⟨1, 0⟩)]
      = [("a", ⟨5, 0⟩), ("c", ⟨5, 0⟩)] ∧
    sumVals (rewardShares ⟨2, 0⟩ ⟨10, 0⟩ [("a", some ⟨1, 0⟩), ("b", none), ("c", some ⟨1, 0⟩)])
      = (Dec.mk 10 0).val := by
  have h2 : rewardShares ⟨2, 0⟩ ⟨10, 0⟩ [("a", some ⟨1, 0⟩), ("b", none), ("c", some ⟨1, 0⟩)]
      = [("a", ⟨5, 0⟩), ("c", ⟨5, 0⟩)] := by decide
  refine ⟨by decide, h2, ?_⟩
  rw [h2]
  simp [sumVals, Dec.val]
  norm_num

/-- C3 (amended): a malformed vote value is caught, logged (an error line
naming the voter is printed) and that single voter is skipped without
aborting the run — the voter receives no share — but, as long as at least
one voter is processed successfully (and the C1 side conditions hold), the
remainder correction still makes the computed shares sum exactly to the
configured reward amount: the conservation invariant is not broken. -/
theorem C3_malformed_skipped {tv ta : Dec} {votes : List (String × Option Dec)} {v : String}
    (hnd : (votes.map Prod.fst).Nodup)
    (hv : (v, (none : Option Dec)) ∈ votes)
    (htv : 0 < tv.c)
    (htae : ta.e = 0) (htac : 0 ≤ ta.c) (htab : ta.c.natAbs < 10 ^ PREC)
    (hwnn : ∀ p ∈ votes, 0 ≤ (p.2.getD ⟨0, 0⟩).c)
    (hne : succEntries tv ta votes ≠ [])
    (hsum : ((succEntries tv ta votes).map (fun q => q.2.c)).sum < ((10 ^ PREC : ℕ) : ℤ)) :
    LogEvent.errVote v ∈ errLog tv ta votes ∧
    (∀ a, (v, a) ∉ rewardShares tv ta votes) ∧
    sumVals (rewardShares tv ta votes) = ta.val := by
  have hw : ∀ p ∈ votes, ∀ w, p.2 = some w → 0 ≤ w.c := by
    intro p hp w hpw
    have := hwnn p hp
    rw [hpw] at this
    simpa using this
  obtain ⟨init, b, hdec, hrs, hval⟩ :=
    rewardShares_spec hnd (le_of_lt htv) htae htac htab hw hne hsum
  have hvnot : v ∉ (succEntries tv ta votes).map Prod.fst := by
    intro hmem
    obtain ⟨q, hq, hq1⟩ := List.mem_map.mp hmem
    obtain ⟨p, hp, hpq⟩ := List.mem_filterMap.mp hq
    cases hw2 : processVoter tv ta p.2 with
    | none =>
      rw [hw2] at hpq
      simp at hpq
    | some a =>
      rw [hw2] at hpq
      simp only [Option.map_some'] at hpq
      obtain rfl := Option.some.inj hpq
      have hp1 : p.1 = v := hq1
      have hpv : p = (v, none) := nodup_keys_eq hnd hp hv hp1
      rw [hpv] at hw2
      exact absurd hw2 (by simp [processVoter])
  refine ⟨List.mem_filterMap.mpr ⟨(v, none), hv, rfl⟩, ?_, hval⟩
  intro a hmem
  apply hvnot
  have h1 : v ∈ (rewardShares tv ta votes).map Prod.fst :=
    List.mem_map_of_mem Prod.fst hmem
  rw [hrs, List.map_append] at h1
  rw [hdec, List.map_append]
  simpa using h1

/-- C3 witness: the amended statement instantiated at total = 2, reward = 10,
votes [a ↦ 1, b ↦ malformed, c ↦ 1]. -/
theorem C3_witness :
    (("b", (none : Option Dec)) ∈ [("a", some (⟨1, 0⟩ : Dec)), ("b", none), ("c", some ⟨1, 0⟩)]) ∧
    (LogEvent.errVote "b" ∈
        errLog ⟨2, 0⟩ ⟨10, 0⟩ [("a", some ⟨1, 0⟩), ("b", none), ("c", some ⟨1, 0⟩)] ∧
      (∀ a, ("b", a) ∉
        rewardShares ⟨2, 0⟩ ⟨10, 0⟩ [("a", some ⟨1, 0⟩), ("b", none), ("c", some ⟨1, 0⟩)]) ∧
      sumVals (rewardShares ⟨2, 0⟩ ⟨10, 0⟩
        [("a", some ⟨1, 0⟩), ("b", none), ("c", some ⟨1, 0⟩)]) = (Dec.mk 10 0).val) :=
  ⟨by decide,
    C3_malformed_skipped (by decide) (by decide) (by decide) rfl (by decide) (by decide)
      (by decide) (by decide) (by decide)⟩

/-! ### Claim C4 -/

theorem pow10_toNat_div (t : ℤ) :
    ((10 : ℚ) ^ t.toNat) / ((10 : ℚ) ^ (-t).toNat) = (10 : ℚ) ^ t := by
  by_cases ht : 0 ≤ t
  · rw [(show (-t).toNat = 0 by omega), pow_zero, div_one, ← zpow_natCast,
      Int.toNat_of_nonneg ht]
  · rw [(show t.toNat = 0 by omega), pow_zero]
    have h1 : t = -(((-t).toNat : ℤ)) := by omega
    conv_rhs => rw [h1]
    rw [zpow_neg, zpow_natCast]
    exact one_div ((10 : ℚ) ^ (-t).toNat)

theorem mulDec_val_exact {x y : Dec} (h : (x.c * y.c).natAbs < 10 ^ PREC) :
    (mulDec x y).val = x.val * y.val := by
  rw [mulDec, reducePrec_eq_self h, Dec.val, Dec.val, Dec.val]
  show ((x.c * y.c : ℤ) : ℚ) * (10 : ℚ) ^ (x.e + y.e) = _
  rw [zpow_add₀ (by norm_num : (10 : ℚ) ≠ 0)]
  push_cast
  ring

theorem divDec_val_exact {x y : Dec} (hx : 0 < x.c) (hy : 0 < y.c)
    (hdvd : (y.c.natAbs * 10 ^ (-(((PREC - 1 : ℕ) : ℤ) - qlog x.c.natAbs y.c.natAbs)).toNat) ∣
            (x.c.natAbs * 10 ^ ((((PREC - 1 : ℕ) : ℤ) - qlog x.c.natAbs y.c.natAbs)).toNat)) :
    (divDec x y).val = x.val / y.val := by
  have hx0 : x.c ≠ 0 := ne_of_gt hx
  have hy0 : y.c ≠ 0 := ne_of_gt hy
  have h10 : (10 : ℚ) ≠ 0 := by norm_num
  have hcond : ¬(x.c = 0 ∨ y.c = 0) := by tauto
  have hsign : ((0 ≤ x.c) = (0 ≤ y.c)) := propext (iff_of_true (le_of_lt hx) (le_of_lt hy))
  set t : ℤ := (((PREC - 1 : ℕ) : ℤ)) - qlog x.c.natAbs y.c.natAbs with hts
  set N : ℕ := x.c.natAbs * 10 ^ t.toNat with hN
  set D : ℕ := y.c.natAbs * 10 ^ (-t).toNat with hD
  have hDpos : 0 < D := by
    rw [hD]
    have h1 : 0 < y.c.natAbs := Int.natAbs_pos.mpr hy0
    positivity
  have hdiv : divDec x y = ⟨(1 : ℤ) * (rheNatDiv N D : ℤ), (x.e - y.e) - t⟩ := by
    simp only [divDec]
    rw [if_neg hcond, if_pos hsign]
  have hexact : rheNatDiv N D = N / D := by
    have hmod : N % D = 0 := by
      obtain ⟨c, hc⟩ := hdvd
      rw [hc]
      exact Nat.mul_mod_right D c
    simp only [rheNatDiv, hmod]
    rw [if_pos (by omega : 2 * 0 < D)]
  have hxabs : ((x.c.natAbs : ℕ) : ℚ) = (x.c : ℚ) := by
    have h1 : ((x.c.natAbs : ℤ) : ℚ) = (x.c : ℚ) := by
      rw [Int.natAbs_of_nonneg (le_of_lt hx)]
    rw [← h1, Int.cast_natCast]
  have hyabs : ((y.c.natAbs : ℕ) : ℚ) = (y.c : ℚ) := by
    have h1 : ((y.c.natAbs : ℤ) : ℚ) = (y.c : ℚ) := by
      rw [Int.natAbs_of_nonneg (le_of_lt hy)]
    rw [← h1, Int.cast_natCast]
  have hNQ : (N : ℚ) = (x.c : ℚ) * (10 : ℚ) ^ t.toNat := by
    rw [hN, Nat.cast_mul, Nat.cast_pow, hxabs]
    norm_num
  have hDQ : (D : ℚ) = (y.c : ℚ) * (10 : ℚ) ^ (-t).toNat := by
    rw [hD, Nat.cast_mul, Nat.cast_pow, hyabs]
    norm_num
  have hcast : (((N / D : ℕ) : ℤ) : ℚ) = (N : ℚ) / (D : ℚ) := by
    rw [Int.cast_natCast]
    exact Nat.cast_div hdvd (Nat.cast_ne_zero.mpr hDpos.ne')
  rw [hdiv, Dec.val]
  show ((1 * ((rheNatDiv N D : ℕ) : ℤ) : ℤ) : ℚ) * (10 : ℚ) ^ (x.e - y.e - t) = x.val / y.val
  rw [one_mul, hexact, hcast, hNQ, hDQ, ← div_mul_div_comm, pow10_toNat_div t, mul_assoc,
    ← zpow_add₀ h10, (show t + (x.e - y.e - t) = x.e - y.e by ring), zpow_sub₀ h10,
    div_mul_div_comm, Dec.val, Dec.val]

theorem quantizeDown_some_val_floor {x a : Dec} (hx : 0 ≤ x.c)
    (h : quantizeDown x = some a) : a = ⟨⌊x.val⌋, 0⟩ := by
  simp only [quantizeDown] at h
  by_cases he : 0 ≤ x.e
  · rw [if_pos he] at h
    by_cases hg : (x.c * 10 ^ x.e.toNat).natAbs < 10 ^ PREC
    · rw [if_pos hg] at h
      obtain rfl := Option.some.inj h
      have hval : x.val = ((x.c * 10 ^ x.e.toNat : ℤ) : ℚ) := by
        rw [Dec.val]
        push_cast
        rw [← zpow_natCast (10 : ℚ) x.e.toNat, Int.toNat_of_nonneg he]
      rw [hval, Int.floor_intCast]
    · rw [if_neg hg] at h
      exact absurd h (by simp)
  · rw [if_neg he, if_pos hx, one_mul] at h
    by_cases hg : (((x.c.natAbs / 10 ^ (-x.e).toNat : ℕ) : ℤ)).natAbs < 10 ^ PREC
    · rw [if_pos hg] at h
      obtain rfl := Option.some.inj h
      have hk : 0 < (10 : ℕ) ^ (-x.e).toNat := by positivity
      have hkQ : (0 : ℚ) < (((10 : ℕ) ^ (-x.e).toNat : ℕ) : ℚ) := by
        exact_mod_cast hk
      have hxabs : ((x.c.natAbs : ℕ) : ℚ) = (x.c : ℚ) := by
        have h1 : ((x.c.natAbs : ℤ) : ℚ) = (x.c : ℚ) := by
          rw [Int.natAbs_of_nonneg hx]
        rw [← h1, Int.cast_natCast]
      have hpow : (10 : ℚ) ^ x.e = (((10 : ℕ) ^ (-x.e).toNat : ℕ) : ℚ)⁻¹ := by
        have hxe : x.e = -(((-x.e).toNat : ℤ)) := by omega
        conv_lhs => rw [hxe]
        rw [zpow_neg, zpow_natCast]
        norm_num
      have hval : x.val = ((x.c.natAbs : ℕ) : ℚ) / (((10 : ℕ) ^ (-x.e).toNat : ℕ) : ℚ) := by
        rw [Dec.val, hpow, ← hxabs, div_eq_mul_inv]
      have h1 : x.c.natAbs / 10 ^ (-x.e).toNat * 10 ^ (-x.e).toNat ≤ x.c.natAbs :=
        Nat.div_mul_le_self _ _
      have h2 : x.c.natAbs < (x.c.natAbs / 10 ^ (-x.e).toNat + 1) * 10 ^ (-x.e).toNat := by
        have hdm := Nat.div_add_mod x.c.natAbs (10 ^ (-x.e).toNat)
        have hml : x.c.natAbs % 10 ^ (-x.e).toNat < 10 ^ (-x.e).toNat :=
          Nat.mod_lt _ hk
        have hmc : 10 ^ (-x.e).toNat * (x.c.natAbs / 10 ^ (-x.e).toNat) =
            (x.c.natAbs / 10 ^ (-x.e).toNat) * 10 ^ (-x.e).toNat := Nat.mul_comm _ _
        rw [hmc] at hdm
        rw [Nat.add_mul, one_mul]
        omega
      have h1Q : ((x.c.natAbs / 10 ^ (-x.e).toNat * 10 ^ (-x.e).toNat : ℕ) : ℚ) ≤
          ((x.c.natAbs : ℕ) : ℚ) := Nat.cast_le.mpr h1
      have h2Q : ((x.c.natAbs : ℕ) : ℚ) <
          (((x.c.natAbs / 10 ^ (-x.e).toNat + 1) * 10 ^ (-x.e).toNat : ℕ) : ℚ) :=
        Nat.cast_lt.mpr h2
      have hfl : ⌊x.val⌋ = ((x.c.natAbs / 10 ^ (-x.e).toNat : ℕ) : ℤ) := by
        rw [Int.floor_eq_iff]
        constructor
        · rw [hval, le_div_iff₀ hkQ, Int.cast_natCast]
          rw [Nat.cast_mul] at h1Q
          exact h1Q
        · rw [hval, div_lt_iff₀ hkQ, Int.cast_natCast]
          rw [Nat.cast_mul, Nat.cast_add, Nat.cast_one] at h2Q
          exact h2Q
      rw [hfl]
    · rw [if_neg hg] at h
      exact absurd h (by simp)

theorem reducePrec_val (d : Dec)
    (h : ((10 : ℤ) ^ (digitsLen d.c.natAbs - PREC)) ∣ d.c) : (reducePrec d).val = d.val := by
  by_cases hd : digitsLen d.c.natAbs ≤ PREC
  · simp only [reducePrec]
    rw [if_pos hd]
  · simp only [reducePrec]
    rw [if_neg hd]
    set k := digitsLen d.c.natAbs - PREC with hk
    have hkpos : 0 < (10 : ℕ) ^ k := by positivity
    have hdvdN : 10 ^ k ∣ d.c.natAbs := by
      have h2 : ((10 : ℤ) ^ k).natAbs ∣ d.c.natAbs := Int.natAbs_dvd_natAbs.mpr h
      have h3 : ((10 : ℤ) ^ k).natAbs = 10 ^ k := by
        rw [Int.natAbs_pow]
        rfl
      rw [h3] at h2
      exact h2
    have hexact : rheNatDiv d.c.natAbs (10 ^ k) = d.c.natAbs / 10 ^ k := by
      have hmod : d.c.natAbs % 10 ^ k = 0 := by
        obtain ⟨c, hc⟩ := hdvdN
        rw [hc]
        exact Nat.mul_mod_right _ _
      simp only [rheNatDiv, hmod]
      rw [if_pos (by omega : 2 * 0 < 10 ^ k)]
    obtain ⟨m, hm⟩ := hdvdN
    have hq : d.c.natAbs / 10 ^ k = m := by
      rw [hm]
      exact Nat.mul_div_cancel_left m hkpos
    have hc : d.c = (if 0 ≤ d.c then (1 : ℤ) else -1) * ((10 ^ k * m : ℕ) : ℤ) := by
      rw [← hm]
      by_cases hs : 0 ≤ d.c
      · rw [if_pos hs, one_mul]
        exact (Int.natAbs_of_nonneg hs).symm
      · rw [if_neg hs]
        omega
    rw [Dec.val, Dec.val]
    show (((if 0 ≤ d.c then (1 : ℤ) else -1) *
        ((rheNatDiv d.c.natAbs (10 ^ k) : ℕ) : ℤ) : ℤ) : ℚ) *
        (10 : ℚ) ^ (d.e + (k : ℤ)) = (d.c : ℚ) * (10 : ℚ) ^ d.e
    rw [hexact, hq, zpow_add₀ (by norm_num : (10 : ℚ) ≠ 0), zpow_natCast]
    conv_rhs => rw [hc]
    push_cast
    ring

theorem mulDec_val_dvd {x y : Dec}
    (h : ((10 : ℤ) ^ (digitsLen (x.c * y.c).natAbs - PREC)) ∣ (x.c * y.c)) :
    (mulDec x y).val = x.val * y.val := by
  rw [mulDec, reducePrec_val ⟨x.c * y.c, x.e + y.e⟩ h, Dec.val, Dec.val, Dec.val]
  show ((x.c * y.c : ℤ) : ℚ) * (10 : ℚ) ^ (x.e + y.e) = _
  rw [zpow_add₀ (by norm_num : (10 : ℚ) ≠ 0)]
  push_cast
  ring

/-- C4 (amended): the voter's pre-correction amount is the truncation toward
zero of `reward × (weight / total)` computed in the 28-significant-digit
decimal context.  When the division and the multiplication happen to be
exact in that context (the divisibility side conditions below), the amount
equals `floor(reward × (weight / total))` of the exact rational values, and
in particular never exceeds the voter's exact proportional share. -/
theorem C4_truncated_share {tv ta w : Dec}
    (htv : 0 < tv.c) (hta : 0 ≤ ta.c) (hw : 0 ≤ w.c)
    (hdvd : w.c ≠ 0 →
      (tv.c.natAbs * 10 ^ (-(((PREC - 1 : ℕ) : ℤ) - qlog w.c.natAbs tv.c.natAbs)).toNat) ∣
      (w.c.natAbs * 10 ^ ((((PREC - 1 : ℕ) : ℤ) - qlog w.c.natAbs tv.c.natAbs)).toNat))
    (hmul : ((10 : ℤ) ^ (digitsLen (ta.c * (divDec w tv).c).natAbs - PREC)) ∣
      (ta.c * (divDec w tv).c))
    (hqs : (quantizeDown (mulDec ta (divDec w tv))).isSome = true) :
    processVoter tv ta (some w) = some ⟨⌊ta.val * (w.val / tv.val)⌋, 0⟩ ∧
    ((⌊ta.val * (w.val / tv.val)⌋ : ℚ) ≤ ta.val * (w.val / tv.val)) := by
  have hshare_val : (divDec w tv).val = w.val / tv.val := by
    by_cases hw0 : w.c = 0
    · have hd : divDec w tv = ⟨0, 0⟩ := by
        simp [divDec, hw0]
      have hwv : w.val = 0 := by
        rw [Dec.val, hw0]
        simp
      rw [hd, hwv, Dec.val]
      simp
    · exact divDec_val_exact (lt_of_le_of_ne hw (Ne.symm hw0)) htv (hdvd hw0)
  have hprod_val : (mulDec ta (divDec w tv)).val = ta.val * (w.val / tv.val) := by
    rw [mulDec_val_dvd hmul, hshare_val]
  have hprod_c : 0 ≤ (mulDec ta (divDec w tv)).c :=
    mulDec_c_nonneg hta (divDec_c_nonneg hw (le_of_lt htv))
  obtain ⟨a, ha⟩ := Option.isSome_iff_exists.mp hqs
  have haf := quantizeDown_some_val_floor hprod_c ha
  refine ⟨?_, Int.floor_le _⟩
  show quantizeDown (mulDec ta (divDec w tv)) = _
  rw [ha, haf, hprod_val]

/-- C4, counterexample: with total = 3, weight = 2 and reward
`9999999999999999999999999998`, the context-rounded computation produces
`6666666666666666666666666666`, while
`floor(reward × (weight / total))` under exact arithmetic is
`6666666666666666666666666665`; moreover the produced amount strictly
exceeds the voter's exact proportional share, so the code neither computes
the claimed exact floor nor guarantees that no voter is over-allocated. -/
theorem C4_counterexample :
    processVoter ⟨3, 0⟩ ⟨9999999999999999999999999998, 0⟩ (some ⟨2, 0⟩)
      = some ⟨6666666666666666666666666666, 0⟩ ∧
    specAmount (Dec.mk 9999999999999999999999999998 0).val (Dec.mk 3 0).val (Dec.mk 2 0).val
      = 6666666666666666666666666665 ∧
    (6666666666666666666666666666 : ℤ) ≠ 6666666666666666666666666665 ∧
    ¬ ((Dec.mk 6666666666666666666666666666 0).val ≤
        (Dec.mk 9999999999999999999999999998 0).val *
          ((Dec.mk 2 0).val / (Dec.mk 3 0).val)) := by
  refine ⟨by decide, ?_, by decide, ?_⟩
  · rw [specAmount, Dec.val_exp0, Dec.val_exp0, Dec.val_exp0]
    apply Int.floor_eq_iff.mpr
    constructor
    · push_cast
      norm_num
    · push_cast
      norm_num
  · rw [Dec.val_exp0, Dec.val_exp0, Dec.val_exp0, Dec.val_exp0]
    push_cast
    norm_num

/-- C4 witness: the amended statement applied to the three voters of the
claim's example (total = 100, reward = 10, weights 50, 30, 20), which
produces the amounts 5, 3 and 2. -/
theorem C4_witness :
    ((0 : ℤ) < (Dec.mk 100 0).c ∧ (0 : ℤ) ≤ (Dec.mk 10 0).c ∧ (0 : ℤ) ≤ (Dec.mk 50 0).c) ∧
    (processVoter ⟨100, 0⟩ ⟨10, 0⟩ (some ⟨50, 0⟩)
        = some ⟨⌊(Dec.mk 10 0).val * ((Dec.mk 50 0).val / (Dec.mk 100 0).val)⌋, 0⟩ ∧
      ((⌊(Dec.mk 10 0).val * ((Dec.mk 50 0).val / (Dec.mk 100 0).val)⌋ : ℚ) ≤
        (Dec.mk 10 0).val * ((Dec.mk 50 0).val / (Dec.mk 100 0).val))) ∧
    (processVoter ⟨100, 0⟩ ⟨10, 0⟩ (some ⟨30, 0⟩)
        = some ⟨⌊(Dec.mk 10 0).val * ((Dec.mk 30 0).val / (Dec.mk 100 0).val)⌋, 0⟩) ∧
    (processVoter ⟨100, 0⟩ ⟨10, 0⟩ (some ⟨20, 0⟩)
        = some ⟨⌊(Dec.mk 10 0).val * ((Dec.mk 20 0).val / (Dec.mk 100 0).val)⌋, 0⟩) ∧
    ([(50 : ℤ), 30, 20].map (fun c => processVoter ⟨100, 0⟩ ⟨10, 0⟩ (some ⟨c, 0⟩))
        = [some ⟨5, 0⟩, some ⟨3, 0⟩, some ⟨2, 0⟩]) :=
  ⟨⟨by decide, by decide, by decide⟩,
   C4_truncated_share (by decide) (by decide) (by decide) (fun _ => by decide) (by decide)
     (by decide),
   (C4_truncated_share (by decide) (by decide) (by decide) (fun _ => by decide) (by decide)
     (by decide)).1,
   (C4_truncated_share (by decide) (by decide) (by decide) (fun _ => by decide) (by decide)
     (by decide)).1,
   by decide⟩

/-! ### Claims C6 and C9 -/

theorem processGauge_notFound {norm : List (String × GaugeData)}
    {st : List (String × List (String × Dec)) × List LogEvent} {g : GaugeReward}
    (h : dget? norm (strLower g.gauge_address) = none) :
    processGauge norm st g = (st.1, st.2 ++ [LogEvent.warnGaugeNotFound]) := by
  unfold processGauge
  rw [h]

theorem processGauge_found {norm : List (String × GaugeData)}
    {st : List (String × List (String × Dec)) × List LogEvent} {g : GaugeReward}
    {gd : GaugeData} (h : dget? norm (strLower g.gauge_address) = some gd) :
    processGauge norm st g =
      if gd.total.isZero then (st.1, st.2 ++ [LogEvent.warnNoVotes])
      else g.rewards.foldl (fun st2 r =>
        let res := voterSharesRaw gd.total r.amount gd.votes
        (addToRewards st2.1 r.symbol (applyRemainder r.amount res.1 res.2.1),
         st2.2 ++ res.2.2)) st := by
  unfold processGauge
  rw [h]

/-- C6: a configured gauge whose lower-cased address is absent from the
normalized vote tally, or whose total field is numerically zero, is skipped
with exactly one warning line: the accumulated voter rewards are left
unchanged by all of that gauge's (gauge, reward) pairs, and the run
continues (the step is a total function, so no abort can occur). -/
theorem C6_gauge_skip {vd : List (String × GaugeData)}
    {st : List (String × List (String × Dec)) × List LogEvent} {g : GaugeReward}
    (h : dget? (normalizeVoting vd) (strLower g.gauge_address) = none ∨
         ∃ gd, dget? (normalizeVoting vd) (strLower g.gauge_address) = some gd ∧
           gd.total.isZero = true) :
    (processGauge (normalizeVoting vd) st g).1 = st.1 ∧
    ((processGauge (normalizeVoting vd) st g).2 = st.2 ++ [LogEvent.warnGaugeNotFound] ∨
     (processGauge (normalizeVoting vd) st g).2 = st.2 ++ [LogEvent.warnNoVotes]) := by
  rcases h with hnone | ⟨gd, hsome, hzero⟩
  · rw [processGauge_notFound hnone]
    exact ⟨rfl, Or.inl rfl⟩
  · rw [processGauge_found hsome, if_pos hzero]
    exact ⟨rfl, Or.inr rfl⟩

/-- C6 witness: the skip applied to a gauge that is absent from the
normalized tally, and to one that is present with a zero total. -/
theorem C6_witness :
    (dget? (normalizeVoting [("0xh", ⟨⟨0, 0⟩, []⟩)]) (strLower "0xG") = none) ∧
    ((processGauge (normalizeVoting [("0xh", ⟨⟨0, 0⟩, []⟩)]) (([], []))
        ⟨"0xG", [⟨⟨10, 0⟩, "tok"⟩]⟩).1 = (([], []) :
          List (String × List (String × Dec)) × List LogEvent).1 ∧
      ((processGauge (normalizeVoting [("0xh", ⟨⟨0, 0⟩, []⟩)]) (([], []))
          ⟨"0xG", [⟨⟨10, 0⟩, "tok"⟩]⟩).2 = (([], []) :
            List (String × List (String × Dec)) × List LogEvent).2 ++
            [LogEvent.warnGaugeNotFound] ∨
       (processGauge (normalizeVoting [("0xh", ⟨⟨0, 0⟩, []⟩)]) (([], []))
          ⟨"0xG", [⟨⟨10, 0⟩, "tok"⟩]⟩).2 = (([], []) :
            List (String × List (String × Dec)) × List LogEvent).2 ++
            [LogEvent.warnNoVotes])) :=
  ⟨by decide, C6_gauge_skip (Or.inl (by decide))⟩

/-- C9: a gauge present in the normalized tally with non-zero total whose
votes mapping is empty or contains only malformed entries distributes
nothing: no warning is emitted (the only printed lines are per-voter error
lines), no remainder correction occurs (the share dict stays empty), the
accumulated voter rewards are unchanged, and the sum of shares of each of
the gauge's (gauge, token) pairs is 0 — not the configured amount. -/
theorem C9_no_distribution {norm : List (String × GaugeData)}
    {st : List (String × List (String × Dec)) × List LogEvent}
    {g : GaugeReward} {gd : GaugeData}
    (hfound : dget? norm (strLower g.gauge_address) = some gd)
    (htot : gd.total.isZero = false)
    (hnone : ∀ p ∈ gd.votes, p.2 = none) :
    (processGauge norm st g).1 = st.1 ∧
    (∃ errs, (processGauge norm st g).2 = st.2 ++ errs ∧
      ∀ e ∈ errs, ∃ v, e = LogEvent.errVote v) ∧
    (∀ r ∈ g.rewards, rewardShares gd.total r.amount gd.votes = [] ∧
      sumVals (rewardShares gd.total r.amount gd.votes) = 0 ∧
      (r.amount.val ≠ 0 → sumVals (rewardShares gd.total r.amount gd.votes) ≠ r.amount.val)) := by
  have hraw : ∀ ta : Dec, voterSharesRaw gd.total ta gd.votes =
      ([], ⟨0, 0⟩, errLog gd.total ta gd.votes) := by
    intro ta
    have h1 := @foldl_stepVoter_allNone gd.total ta gd.votes hnone [] ⟨0, 0⟩ []
    simpa [voterSharesRaw] using h1
  have hshares : ∀ ta : Dec, rewardShares gd.total ta gd.votes = [] := by
    intro ta
    show applyRemainder ta (voterSharesRaw gd.total ta gd.votes).1
      (voterSharesRaw gd.total ta gd.votes).2.1 = []
    rw [hraw ta]
    rfl
  have hfold : ∀ (rewards : List TokenAmount)
      (st2 : List (String × List (String × Dec)) × List LogEvent),
      (rewards.foldl (fun st2 r =>
        let res := voterSharesRaw gd.total r.amount gd.votes
        (addToRewards st2.1 r.symbol (applyRemainder r.amount res.1 res.2.1),
         st2.2 ++ res.2.2)) st2).1 = st2.1 ∧
      ∃ errs, (rewards.foldl (fun st2 r =>
        let res := voterSharesRaw gd.total r.amount gd.votes
        (addToRewards st2.1 r.symbol (applyRemainder r.amount res.1 res.2.1),
         st2.2 ++ res.2.2)) st2).2 = st2.2 ++ errs ∧
        ∀ e ∈ errs, ∃ v, e = LogEvent.errVote v := by
    intro rewards
    induction rewards with
    | nil =>
      intro st2
      exact ⟨rfl, [], by simp, by simp⟩
    | cons r rest ih =>
      intro st2
      rw [List.foldl_cons]
      have hstep : (fun st2 r =>
          let res := voterSharesRaw gd.total r.amount gd.votes
          (addToRewards st2.1 r.symbol (applyRemainder r.amount res.1 res.2.1),
           st2.2 ++ res.2.2)) st2 r =
          (st2.1, st2.2 ++ errLog gd.total r.amount gd.votes) := by
        show (addToRewards st2.1 r.symbol
            (applyRemainder r.amount (voterSharesRaw gd.total r.amount gd.votes).1
              (voterSharesRaw gd.total r.amount gd.votes).2.1),
          st2.2 ++ (voterSharesRaw gd.total r.amount gd.votes).2.2) = _
        rw [hraw r.amount]
        rfl
      simp only [hstep]
      obtain ⟨h1, errs, h2, h3⟩ := ih (st2.1, st2.2 ++ errLog gd.total r.amount gd.votes)
      refine ⟨h1, errLog gd.total r.amount gd.votes ++ errs, ?_, ?_⟩
      · rw [h2]
        simp [List.append_assoc]
      · intro e he
        rcases List.mem_append.mp he with hA | hB
        · exact errLog_shape _ _ _ e hA
        · exact h3 e hB
  rw [processGauge_found hfound, if_neg (by simp [htot])]
  obtain ⟨h1, errs, h2, h3⟩ := hfold g.rewards st
  refine ⟨h1, ⟨errs, h2, h3⟩, ?_⟩
  intro r _
  have hz : sumVals (rewardShares gd.total r.amount gd.votes) = 0 := by
    rw [hshares r.amount]
    simp [sumVals]
  refine ⟨hshares r.amount, hz, ?_⟩
  intro hne
  rw [hz]
  exact fun hcontra => hne hcontra.symm

/-- C9 witness: a gauge with total 5 whose single vote entry is malformed:
the state is unchanged, only error lines are printed, and the (gauge, token)
pair's shares sum to 0 rather than to the configured 10. -/
theorem C9_witness :
    (dget? [("0xg", (⟨⟨5, 0⟩, [("a", none)]⟩ : GaugeData))] (strLower "0xg")
        = some (⟨⟨5, 0⟩, [("a", none)]⟩ : GaugeData)) ∧
    ((processGauge [("0xg", ⟨⟨5, 0⟩, [("a", none)]⟩)] (([], []))
        ⟨"0xg", [⟨⟨10, 0⟩, "tok"⟩]⟩).1 = (([], []) :
          List (String × List (String × Dec)) × List LogEvent).1 ∧
      (∃ errs, (processGauge [("0xg", ⟨⟨5, 0⟩, [("a", none)]⟩)] (([], []))
          ⟨"0xg", [⟨⟨10, 0⟩, "tok"⟩]⟩).2 = (([], []) :
            List (String × List (String × Dec)) × List LogEvent).2 ++ errs ∧
        ∀ e ∈ errs, ∃ v, e = LogEvent.errVote v) ∧
      (∀ r ∈ ([⟨⟨10, 0⟩, "tok"⟩] : List TokenAmount),
        rewardShares (⟨5, 0⟩ : Dec) r.amount [("a", none)] = [] ∧
        sumVals (rewardShares (⟨5, 0⟩ : Dec) r.amount [("a", none)]) = 0 ∧
        (r.amount.val ≠ 0 →
          sumVals (rewardShares (⟨5, 0⟩ : Dec) r.amount [("a", none)]) ≠ r.amount.val))) :=
  ⟨by decide,
    @C9_no_distribution [("0xg", ⟨⟨5, 0⟩, [("a", none)]⟩)] ([], [])
      ⟨"0xg", [⟨⟨10, 0⟩, "tok"⟩]⟩ ⟨⟨5, 0⟩, [("a", none)]⟩
      (by decide) (by decide) (by decide)⟩

/-! ### Claim C5 -/

theorem groupStep_eq (st : GroupState) (v : String) (ts : List (String × Dec)) :
    groupStep st (v, ts) =
      if SELF_VOTERS.contains (strLower v) then st
      else
        ts.foldl
          (tokenStep (strLower v) (FORWARDERS.contains (strLower v))
            (NON_FORWARDERS.contains (strLower v)))
          (if !FORWARDERS.contains (strLower v) && !NON_FORWARDERS.contains (strLower v) &&
              !(st.oa.any (fun q => q.1 == strLower v)) then
            { st with oa := st.oa ++ [(strLower v, [])] }
          else st) := rfl

theorem groupStep_self {st : GroupState} {p : String × List (String × Dec)}
    (h : SELF_VOTERS.contains (strLower p.1) = true) : groupStep st p = st := by
  rw [show groupStep st p = groupStep st (p.1, p.2) from rfl, groupStep_eq, if_pos h]

theorem foldl_groupStep_filter :
    ∀ (vr : List (String × List (String × Dec))) (st : GroupState),
      vr.foldl groupStep st =
        (vr.filter (fun p => !SELF_VOTERS.contains (strLower p.1))).foldl groupStep st := by
  intro vr
  induction vr with
  | nil => intro st; rfl
  | cons p vr ih =>
    intro st
    cases hc : SELF_VOTERS.contains (strLower p.1) with
    | true =>
      rw [List.foldl_cons, groupStep_self hc, List.filter_cons_of_neg (by rw [hc]; simp)]
      exact ih st
    | false =>
      rw [List.foldl_cons, List.filter_cons_of_pos (by rw [hc]; simp), List.foldl_cons]
      exact ih (groupStep st p)

theorem dset_keys_of_any {α : Type} {m : List (String × α)} {k : String} {v : α}
    (h : m.any (fun p => p.1 == k) = true) :
    (dset m k v).map Prod.fst = m.map Prod.fst := by
  rw [dset, if_pos h, List.map_map]
  apply List.map_congr_left
  intro p _
  simp only [Function.comp_apply]
  by_cases hb : (p.1 == k) = true
  · rw [if_pos hb]
    exact (beq_iff_eq.mp hb).symm
  · rw [if_neg hb]

theorem tokenStep_oa_keys (v : String) (isF isN : Bool) (st : GroupState)
    (tp : String × Dec) :
    (tokenStep v isF isN st tp).oa.map Prod.fst = st.oa.map Prod.fst := by
  simp only [tokenStep]
  have h3 : (if isF then { st with ft := updTotals st.ft tp.1 tp.2 }
      else if isN then { st with nft := updTotals st.nft tp.1 tp.2 }
      else { st with ot := updTotals st.ot tp.1 tp.2 }).oa = st.oa := by
    cases isF <;> cases isN <;> rfl
  rw [h3]
  by_cases hany : st.oa.any (fun q => q.1 == v) = true
  · rw [if_pos hany]
    exact dset_keys_of_any hany
  · rw [if_neg hany, h3]

theorem foldl_tokenStep_oa_keys (v : String) (isF isN : Bool) :
    ∀ (ts : List (String × Dec)) (st : GroupState),
      (ts.foldl (tokenStep v isF isN) st).oa.map Prod.fst = st.oa.map Prod.fst := by
  intro ts
  induction ts with
  | nil => intro st; rfl
  | cons tp ts ih =>
    intro st
    rw [List.foldl_cons, ih, tokenStep_oa_keys]

theorem groupStep_oa_keys {st : GroupState} {p : String × List (String × Dec)} :
    ∀ k, k ∈ (groupStep st p).oa.map Prod.fst →
      k ∈ st.oa.map Prod.fst ∨
      (k = strLower p.1 ∧ SELF_VOTERS.contains k = false ∧
       FORWARDERS.contains k = false ∧ NON_FORWARDERS.contains k = false) := by
  intro k hk
  unfold groupStep at hk
  by_cases hself : SELF_VOTERS.contains (strLower p.1) = true
  · rw [if_pos hself] at hk
    exact Or.inl hk
  · rw [if_neg hself] at hk
    rw [foldl_tokenStep_oa_keys] at hk
    by_cases hcond : (!FORWARDERS.contains (strLower p.1) &&
        !NON_FORWARDERS.contains (strLower p.1) &&
        !st.oa.any (fun q => q.1 == strLower p.1)) = true
    · rw [if_pos hcond] at hk
      simp only [List.map_append] at hk
      rcases List.mem_append.mp hk with h1 | h2
      · exact Or.inl h1
      · right
        simp only [List.map_cons, List.map_nil, List.mem_singleton] at h2
        subst h2
        simp only [Bool.and_eq_true, Bool.not_eq_true'] at hcond
        exact ⟨rfl, Bool.not_eq_true _ ▸ (by simpa using hself), hcond.1.1, hcond.1.2⟩
    · rw [if_neg hcond] at hk
      exact Or.inl hk

theorem analyze_oa_keys (vr : List (String × List (String × Dec))) :
    ∀ k ∈ (analyze_group_totals vr).oa.map Prod.fst,
      SELF_VOTERS.contains k = false ∧ FORWARDERS.contains k = false ∧
      NON_FORWARDERS.contains k = false := by
  suffices h : ∀ (vr : List (String × List (String × Dec))) (st : GroupState),
      (∀ k ∈ st.oa.map Prod.fst,
        SELF_VOTERS.contains k = false ∧ FORWARDERS.contains k = false ∧
        NON_FORWARDERS.contains k = false) →
      ∀ k ∈ (vr.foldl groupStep st).oa.map Prod.fst,
        SELF_VOTERS.contains k = false ∧ FORWARDERS.contains k = false ∧
        NON_FORWARDERS.contains k = false by
    exact h vr ⟨[], [], [], []⟩ (by simp)
  intro vr
  induction vr with
  | nil => intro st hst; exact hst
  | cons p vr ih =>
    intro st hst
    rw [List.foldl_cons]
    apply ih
    intro k hk
    rcases groupStep_oa_keys k hk with h1 | ⟨_, h2, h3, h4⟩
    · exact hst k h1
    · exact ⟨h2, h3, h4⟩

theorem foldl_tokenStep_F (w : String) (isN : Bool) :
    ∀ (ts : List (String × Dec)) (st : GroupState), st.oa = [] →
      (ts.foldl (tokenStep w true isN) st).nft = st.nft ∧
      (ts.foldl (tokenStep w true isN) st).ot = st.ot ∧
      (ts.foldl (tokenStep w true isN) st).oa = [] := by
  intro ts
  induction ts with
  | nil => intro st h; exact ⟨rfl, rfl, h⟩
  | cons tp ts ih =>
    intro st h
    have hstep : tokenStep w true isN st tp = { st with ft := updTotals st.ft tp.1 tp.2 } := by
      unfold tokenStep
      rw [if_pos (show true = true from rfl)]
      rw [show ({ st with ft := updTotals st.ft tp.1 tp.2 } : GroupState).oa = st.oa from rfl, h]
      simp
    rw [List.foldl_cons, hstep]
    exact ih _ h

theorem foldl_tokenStep_N (w : String) :
    ∀ (ts : List (String × Dec)) (st : GroupState), st.oa = [] →
      (ts.foldl (tokenStep w false true) st).ft = st.ft ∧
      (ts.foldl (tokenStep w false true) st).ot = st.ot ∧
      (ts.foldl (tokenStep w false true) st).oa = [] := by
  intro ts
  induction ts with
  | nil => intro st h; exact ⟨rfl, rfl, h⟩
  | cons tp ts ih =>
    intro st h
    have hstep : tokenStep w false true st tp =
        { st with nft := updTotals st.nft tp.1 tp.2 } := by
      unfold tokenStep
      rw [if_neg (show ¬(false = true) by simp), if_pos (show true = true from rfl)]
      rw [show ({ st with nft := updTotals st.nft tp.1 tp.2 } : GroupState).oa = st.oa from rfl, h]
      simp
    rw [List.foldl_cons, hstep]
    exact ih _ h

theorem foldl_tokenStep_O (w : String) :
    ∀ (ts : List (String × Dec)) (st : GroupState),
      (ts.foldl (tokenStep w false false) st).ft = st.ft ∧
      (ts.foldl (tokenStep w false false) st).nft = st.nft := by
  intro ts
  induction ts with
  | nil => intro st; exact ⟨rfl, rfl⟩
  | cons tp ts ih =>
    intro st
    have hstep : (tokenStep w false false st tp).ft = st.ft ∧
        (tokenStep w false false st tp).nft = st.nft := by
      unfold tokenStep
      rw [if_neg (show ¬(false = true) by simp), if_neg (show ¬(false = true) by simp)]
      rw [show ({ st with ot := updTotals st.ot tp.1 tp.2 } : GroupState).oa = st.oa from rfl]
      by_cases hany : st.oa.any (fun q => q.1 == w) = true
      · rw [if_pos hany]
        exact ⟨rfl, rfl⟩
      · rw [if_neg hany]
        exact ⟨rfl, rfl⟩
    rw [List.foldl_cons]
    obtain ⟨h1, h2⟩ := ih (tokenStep w false false st tp)
    exact ⟨h1.trans hstep.1, h2.trans hstep.2⟩

/-- C5: self-voters are dropped entirely (removing them from the input does
not change any of the four accumulators, so they contribute to no totals and
no itemization); every address itemized in `other_addresses` is outside all
three classification sets; and a non-self voter's amounts go to exactly one
of the three groups: a forwarder entry leaves the non-forwarder, other and
itemization accumulators empty, a non-forwarder entry leaves the forwarder,
other and itemization accumulators empty, and an "other" entry leaves the
forwarder and non-forwarder accumulators empty. -/
theorem C5_grouping :
    (∀ vr : List (String × List (String × Dec)),
      analyze_group_totals vr =
        analyze_group_totals (vr.filter (fun p => !SELF_VOTERS.contains (strLower p.1)))) ∧
    (∀ (vr : List (String × List (String × Dec))) k,
      k ∈ (analyze_group_totals vr).oa.map Prod.fst →
      SELF_VOTERS.contains k = false ∧ FORWARDERS.contains k = false ∧
      NON_FORWARDERS.contains k = false) ∧
    (∀ (v : String) (ts : List (String × Dec)),
      SELF_VOTERS.contains (strLower v) = false →
      (FORWARDERS.contains (strLower v) = true →
        (analyze_group_totals [(v, ts)]).nft = [] ∧
        (analyze_group_totals [(v, ts)]).ot = [] ∧
        (analyze_group_totals [(v, ts)]).oa = []) ∧
      (FORWARDERS.contains (strLower v) = false → NON_FORWARDERS.contains (strLower v) = true →
        (analyze_group_totals [(v, ts)]).ft = [] ∧
        (analyze_group_totals [(v, ts)]).ot = [] ∧
        (analyze_group_totals [(v, ts)]).oa = []) ∧
      (FORWARDERS.contains (strLower v) = false → NON_FORWARDERS.contains (strLower v) = false →
        (analyze_group_totals [(v, ts)]).ft = [] ∧
        (analyze_group_totals [(v, ts)]).nft = [])) := by
  refine ⟨?_, ?_, ?_⟩
  · intro vr
    exact foldl_groupStep_filter vr ⟨[], [], [], []⟩
  · intro vr k hk
    exact analyze_oa_keys vr k hk
  · intro v ts hself
    have hstep : analyze_group_totals [(v, ts)] = groupStep ⟨[], [], [], []⟩ (v, ts) := rfl
    refine ⟨?_, ?_, ?_⟩
    · intro hF
      rw [hstep, groupStep_eq, if_neg (by rw [hself]; simp), hF, if_neg (by simp)]
      exact foldl_tokenStep_F (strLower v) (NON_FORWARDERS.contains (strLower v)) ts _ rfl
    · intro hF hN
      rw [hstep, groupStep_eq, if_neg (by rw [hself]; simp), hF, hN, if_neg (by simp)]
      exact foldl_tokenStep_N (strLower v) ts _ rfl
    · intro hF hN
      rw [hstep, groupStep_eq, if_neg (by rw [hself]; simp), hF, hN, if_pos (by simp)]
      have h1 := foldl_tokenStep_O (strLower v) ts
        { ft := ([] : List (String × Dec)), nft := [], ot := [],
          oa := ([] : List (String × List (String × Dec))) ++ [(strLower v, [])] }
      exact ⟨h1.1, h1.2⟩

/-- C5 witness: a self-voter entry is dropped entirely (analyzing it together
with an ordinary voter gives the same accumulators as analyzing the ordinary
voter alone), and a concrete non-self, non-forwarder, non-non-forwarder
address leaves the forwarder and non-forwarder accumulators empty. -/
theorem C5_witness :
    analyze_group_totals
        [("0x0d0db6402196fb090cd251a1503b5688a30a6116", [("tok", ⟨5, 0⟩)]),
         ("0xother", [("tok", ⟨7, 0⟩)])] =
      analyze_group_totals
        (([("0x0d0db6402196fb090cd251a1503b5688a30a6116", [("tok", (⟨5, 0⟩ : Dec))]),
           ("0xother", [("tok", ⟨7, 0⟩)])]).filter
          (fun p => !SELF_VOTERS.contains (strLower p.1))) ∧
    (SELF_VOTERS.contains (strLower "0xother") = false) ∧
    ((analyze_group_totals [("0xother", [("tok", (⟨7, 0⟩ : Dec))])]).ft = [] ∧
     (analyze_group_totals [("0xother", [("tok", (⟨7, 0⟩ : Dec))])]).nft = []) :=
  ⟨C5_grouping.1 _, by decide,
    (C5_grouping.2.2 "0xother" [("tok", ⟨7, 0⟩)] (by decide)).2.2 (by decide) (by decide)⟩

/-! ### Membership lemmas for the Choice Reconciler -/

theorem mem_insSorted {x a : String} :
    ∀ {l : List String}, a ∈ insSorted x l ↔ a = x ∨ a ∈ l := by
  intro l
  induction l with
  | nil =>
    show a ∈ [x] ↔ a = x ∨ a ∈ ([] : List String)
    simp
  | cons y ys ih =>
    show a ∈ (if x < y then x :: y :: ys else y :: insSorted x ys) ↔ a = x ∨ a ∈ y :: ys
    by_cases h : x < y
    · rw [if_pos h]
      simp only [List.mem_cons]
    · rw [if_neg h]
      rw [List.mem_cons, ih, List.mem_cons]
      tauto

theorem mem_sortStr {a : String} : ∀ {l : List String}, a ∈ sortStr l ↔ a ∈ l := by
  intro l
  induction l with
  | nil => exact Iff.rfl
  | cons x l ih =>
    show a ∈ insSorted x (sortStr l) ↔ a ∈ x :: l
    rw [mem_insSorted, ih, List.mem_cons]

theorem dgetD_not_mem {α : Type} {m : List (String × α)} {k : String} (d : α)
    (h : k ∉ m.map Prod.fst) : dgetD m k d = d := by
  unfold dgetD
  have hf : m.find? (fun p => p.1 == k) = none := by
    rw [List.find?_eq_none]
    intro q hq hbeq
    exact h ((beq_iff_eq.mp hbeq) ▸ List.mem_map_of_mem Prod.fst hq)
  rw [hf]

theorem hasTargetKey_iff {cs : List (String × ℚ)} :
    hasTargetKey cs = true ↔ ∃ c ∈ TARGET_CHOICES, choiceStr c ∈ cs.map Prod.fst := by
  unfold hasTargetKey
  rw [List.any_eq_true]
  constructor
  · rintro ⟨c, hc, hin⟩
    have hin2 : cs.any (fun p => p.1 == choiceStr c) = true := hin
    rw [List.any_eq_true] at hin2
    obtain ⟨q, hq, hqk⟩ := hin2
    have hqk2 : (q.1 == choiceStr c) = true := hqk
    exact ⟨c, hc, (beq_iff_eq.mp hqk2) ▸ List.mem_map_of_mem Prod.fst hq⟩
  · rintro ⟨c, hc, hin⟩
    obtain ⟨q, hq, hqk⟩ := List.mem_map.mp hin
    refine ⟨c, hc, ?_⟩
    show cs.any (fun p => p.1 == choiceStr c) = true
    rw [List.any_eq_true]
    refine ⟨q, hq, ?_⟩
    show (q.1 == choiceStr c) = true
    rw [hqk]
    exact beq_self_eq_true _

theorem relevantDisappeared_mem {pre post : List VoteRecord} {v : String} :
    v ∈ relevantDisappeared pre post ↔
      (v ∈ (normRecords pre).map Prod.fst ∧ v ∉ (normRecords post).map Prod.fst ∧
       hasTargetKey (choicesOf (normRecords pre) v) = true) := by
  unfold relevantDisappeared
  rw [List.mem_filter]
  constructor
  · rintro ⟨h1, h2⟩
    have h2b : (!((normRecords post).map Prod.fst).contains v
        && hasTargetKey (choicesOf (normRecords pre) v)) = true := h2
    rw [Bool.and_eq_true] at h2b
    obtain ⟨h2c, h2d⟩ := h2b
    refine ⟨h1, ?_, h2d⟩
    intro hmem
    have hcv : (((normRecords post).map Prod.fst).contains v) = true := by simpa using hmem
    rw [hcv] at h2c
    simp at h2c
  · rintro ⟨h1, h2, h3⟩
    refine ⟨h1, ?_⟩
    show (!((normRecords post).map Prod.fst).contains v
        && hasTargetKey (choicesOf (normRecords pre) v)) = true
    rw [Bool.and_eq_true]
    refine ⟨?_, h3⟩
    cases hcv : ((normRecords post).map Prod.fst).contains v with
    | false => rfl
    | true => exact absurd (by simpa using hcv) h2

theorem collectTracked_cons_eq (p : String × ℚ) (rest : List (String × ℚ)) :
    collectTracked (p :: rest) =
      match parseIntM p.1 with
      | none => none
      | some n =>
        match collectTracked rest with
        | none => none
        | some tl => some (if TARGET_CHOICES.contains n then p :: tl else tl) := rfl

theorem collectTracked_mem :
    ∀ {cs es : List (String × ℚ)}, collectTracked cs = some es →
      ∀ q : String × ℚ,
        q ∈ es ↔ (q ∈ cs ∧ ∃ n, parseIntM q.1 = some n ∧ n ∈ TARGET_CHOICES) := by
  intro cs
  induction cs with
  | nil =>
    intro es h q
    have h0 : some ([] : List (String × ℚ)) = some es := h
    obtain rfl := Option.some.inj h0
    simp
  | cons p rest ih =>
    intro es h q
    cases hn : parseIntM p.1 with
    | none =>
      rw [collectTracked_cons_eq, hn] at h
      exact Option.noConfusion h
    | some n =>
      cases hr : collectTracked rest with
      | none =>
        rw [collectTracked_cons_eq, hn, hr] at h
        exact Option.noConfusion h
      | some tl =>
        rw [collectTracked_cons_eq, hn, hr] at h
        have h2 : (if TARGET_CHOICES.contains n then p :: tl else tl) = es :=
          Option.some.inj h
        by_cases hc : TARGET_CHOICES.contains n = true
        · rw [if_pos hc] at h2
          subst h2
          rw [List.mem_cons]
          constructor
          · rintro (rfl | hq)
            · exact ⟨List.mem_cons_self q rest, n, hn, by simpa using hc⟩
            · obtain ⟨hm, hex⟩ := (ih hr q).mp hq
              exact ⟨List.mem_cons_of_mem p hm, hex⟩
          · rintro ⟨hm, n2, hn2, ht2⟩
            rcases List.mem_cons.mp hm with rfl | hm2
            · left
              rfl
            · right
              exact (ih hr q).mpr ⟨hm2, n2, hn2, ht2⟩
        · rw [if_neg hc] at h2
          subst h2
          constructor
          · intro hq
            obtain ⟨hm, hex⟩ := (ih hr q).mp hq
            exact ⟨List.mem_cons_of_mem p hm, hex⟩
          · rintro ⟨hm, n2, hn2, ht2⟩
            rcases List.mem_cons.mp hm with rfl | hm2
            · rw [hn] at hn2
              obtain rfl := Option.some.inj hn2
              exact absurd (by simpa using ht2) hc
            · exact (ih hr q).mpr ⟨hm2, n2, hn2, ht2⟩

theorem collectTracked_isSome :
    ∀ {cs : List (String × ℚ)}, (∀ q ∈ cs, (parseIntM q.1).isSome = true) →
      (collectTracked cs).isSome = true := by
  intro cs
  induction cs with
  | nil =>
    intro _
    rfl
  | cons p rest ih =>
    intro h
    obtain ⟨n, hn⟩ := Option.isSome_iff_exists.mp (h p (List.mem_cons_self p rest))
    obtain ⟨tl, htl⟩ :=
      Option.isSome_iff_exists.mp (ih (fun q hq => h q (List.mem_cons_of_mem p hq)))
    rw [collectTracked_cons_eq, hn, htl]
    rfl

theorem optTraverse_cons_eq {α β : Type} (f : α → Option β) (a : α) (l : List α) :
    optTraverse f (a :: l) =
      match f a with
      | none => none
      | some b =>
        match optTraverse f l with
        | none => none
        | some bs => some (b :: bs) := rfl

theorem optTraverse_mem {α β : Type} {f : α → Option β} :
    ∀ {l : List α} {r : List β}, optTraverse f l = some r →
      ∀ b, b ∈ r ↔ ∃ a ∈ l, f a = some b := by
  intro l
  induction l with
  | nil =>
    intro r h b
    have h0 : some ([] : List β) = some r := h
    obtain rfl := Option.some.inj h0
    simp
  | cons a l ih =>
    intro r h b
    cases hfa : f a with
    | none =>
      rw [optTraverse_cons_eq, hfa] at h
      exact Option.noConfusion h
    | some b0 =>
      cases hre : optTraverse f l with
      | none =>
        rw [optTraverse_cons_eq, hfa, hre] at h
        exact Option.noConfusion h
      | some bs =>
        rw [optTraverse_cons_eq, hfa, hre] at h
        have h2 : b0 :: bs = r := Option.some.inj h
        subst h2
        rw [List.mem_cons]
        constructor
        · rintro (rfl | hb)
          · exact ⟨a, List.mem_cons_self a l, hfa⟩
          · obtain ⟨a2, ha2, hfa2⟩ := (ih hre b).mp hb
            exact ⟨a2, List.mem_cons_of_mem a ha2, hfa2⟩
        · rintro ⟨a2, ha2, hfa2⟩
          rcases List.mem_cons.mp ha2 with rfl | ha3
          · rw [hfa] at hfa2
            obtain rfl := Option.some.inj hfa2
            left
            rfl
          · right
            exact (ih hre b).mpr ⟨a2, ha3, hfa2⟩

theorem optTraverse_isSome {α β : Type} {f : α → Option β} :
    ∀ {l : List α}, (∀ a ∈ l, (f a).isSome = true) → (optTraverse f l).isSome = true := by
  intro l
  induction l with
  | nil =>
    intro _
    rfl
  | cons a l ih =>
    intro h
    obtain ⟨b, hb⟩ := Option.isSome_iff_exists.mp (h a (List.mem_cons_self a l))
    obtain ⟨r, hr⟩ :=
      Option.isSome_iff_exists.mp (ih (fun x hx => h x (List.mem_cons_of_mem a hx)))
    rw [optTraverse_cons_eq, hb, hr]
    rfl

/-! ### Claim C7 -/

theorem deltasFor_mem {preC postC : List (String × ℚ)} {c : ℤ} {a b : ℚ} :
    (c, a, b) ∈ deltasFor preC postC ↔
      (c ∈ TARGET_CHOICES ∧ a = dgetD preC (choiceStr c) 0 ∧
       b = dgetD postC (choiceStr c) 0 ∧ a ≠ b) := by
  unfold deltasFor
  rw [List.mem_filterMap]
  constructor
  · rintro ⟨x, hx, hf⟩
    have hf2 : (if dgetD preC (choiceStr x) 0 = dgetD postC (choiceStr x) 0 then
          (none : Option (ℤ × ℚ × ℚ))
        else some (x, dgetD preC (choiceStr x) 0, dgetD postC (choiceStr x) 0))
        = some (c, a, b) := hf
    by_cases he : dgetD preC (choiceStr x) 0 = dgetD postC (choiceStr x) 0
    · rw [if_pos he] at hf2
      exact Option.noConfusion hf2
    · rw [if_neg he] at hf2
      have h3 := Option.some.inj hf2
      injection h3 with h4 h5
      injection h5 with h6 h7
      subst h4
      subst h6
      subst h7
      exact ⟨hx, rfl, rfl, he⟩
  · rintro ⟨hc, rfl, rfl, hne⟩
    refine ⟨c, hc, ?_⟩
    show (if dgetD preC (choiceStr c) 0 = dgetD postC (choiceStr c) 0 then
        (none : Option (ℤ × ℚ × ℚ))
      else some (c, dgetD preC (choiceStr c) 0, dgetD postC (choiceStr c) 0))
      = some (c, dgetD preC (choiceStr c) 0, dgetD postC (choiceStr c) 0)
    rw [if_neg hne]

theorem deltasFor_hasTarget {preC postC : List (String × ℚ)}
    (h : deltasFor preC postC ≠ []) : hasTargetEither preC postC = true := by
  obtain ⟨x, hx⟩ := List.exists_mem_of_ne_nil _ h
  obtain ⟨c, a, b⟩ := x
  rw [deltasFor_mem] at hx
  obtain ⟨hc, ha, hb, hne⟩ := hx
  unfold hasTargetEither
  rw [List.any_eq_true]
  refine ⟨c, hc, ?_⟩
  show (preC.any (fun p => p.1 == choiceStr c) || postC.any (fun p => p.1 == choiceStr c))
    = true
  rw [Bool.or_eq_true]
  by_cases hp : choiceStr c ∈ preC.map Prod.fst
  · left
    rw [List.any_eq_true]
    obtain ⟨q, hq, hqk⟩ := List.mem_map.mp hp
    refine ⟨q, hq, ?_⟩
    show (q.1 == choiceStr c) = true
    rw [hqk]
    exact beq_self_eq_true _
  · by_cases hq2 : choiceStr c ∈ postC.map Prod.fst
    · right
      rw [List.any_eq_true]
      obtain ⟨q, hq, hqk⟩ := List.mem_map.mp hq2
      refine ⟨q, hq, ?_⟩
      show (q.1 == choiceStr c) = true
      rw [hqk]
      exact beq_self_eq_true _
    · exfalso
      rw [dgetD_not_mem 0 hp] at ha
      rw [dgetD_not_mem 0 hq2] at hb
      exact hne (ha.trans hb.symm)

/-- C7: in the delta report, a voter appears if and only if it is present
(after lower-casing) in both normalized snapshots and its `differences` list
for the tracked choice IDs is non-empty, the reported list being exactly that
`differences` list; and a triple `(c, a, b)` is in the `differences` list for
a voter if and only if `c` is a tracked choice ID, `a` and `b` are the pre-
and post-snapshot amounts under the key `str(c)` (defaulting to 0 when the
key is absent) and they differ — so exactly the changed tracked choice IDs
are listed, with their before and after amounts, unchanged ones omitted. -/
theorem C7_delta_report :
    (∀ (pre post : List VoteRecord) (v : String) (ds : List (ℤ × ℚ × ℚ)),
      (v, ds) ∈ reportDeltas pre post ↔
        (v ∈ (normRecords pre).map Prod.fst ∧ v ∈ (normRecords post).map Prod.fst ∧
         ds = deltasFor (choicesOf (normRecords pre) v) (choicesOf (normRecords post) v) ∧
         ds ≠ [])) ∧
    (∀ (preC postC : List (String × ℚ)) (c : ℤ) (a b : ℚ),
      (c, a, b) ∈ deltasFor preC postC ↔
        (c ∈ TARGET_CHOICES ∧ a = dgetD preC (choiceStr c) 0 ∧
         b = dgetD postC (choiceStr c) 0 ∧ a ≠ b)) := by
  constructor
  · intro pre post v ds
    unfold reportDeltas
    rw [List.mem_filterMap]
    constructor
    · rintro ⟨w, hw, hf⟩
      rw [mem_sortStr, List.mem_filter] at hw
      obtain ⟨hwpre, hwpost⟩ := hw
      have hf2 : (if !hasTargetEither (choicesOf (normRecords pre) w)
            (choicesOf (normRecords post) w) then
          (none : Option (String × List (ℤ × ℚ × ℚ)))
        else if deltasFor (choicesOf (normRecords pre) w)
            (choicesOf (normRecords post) w) = [] then
          none
        else
          some (w, deltasFor (choicesOf (normRecords pre) w)
            (choicesOf (normRecords post) w)))
        = some (v, ds) := hf
      by_cases h1 : (!hasTargetEither (choicesOf (normRecords pre) w)
          (choicesOf (normRecords post) w)) = true
      · rw [if_pos h1] at hf2
        exact Option.noConfusion hf2
      · rw [if_neg h1] at hf2
        by_cases h2 : deltasFor (choicesOf (normRecords pre) w)
            (choicesOf (normRecords post) w) = []
        · rw [if_pos h2] at hf2
          exact Option.noConfusion hf2
        · rw [if_neg h2] at hf2
          have h3 := Option.some.inj hf2
          injection h3 with h4 h5
          subst h4
          subst h5
          exact ⟨hwpre, by simpa using hwpost, rfl, h2⟩
    · rintro ⟨hp, hq, hds, hne⟩
      subst hds
      refine ⟨v, ?_, ?_⟩
      · rw [mem_sortStr, List.mem_filter]
        exact ⟨hp, by simpa using hq⟩
      · show (if !hasTargetEither (choicesOf (normRecords pre) v)
              (choicesOf (normRecords post) v) then
            (none : Option (String × List (ℤ × ℚ × ℚ)))
          else if deltasFor (choicesOf (normRecords pre) v)
              (choicesOf (normRecords post) v) = [] then
            none
          else
            some (v, deltasFor (choicesOf (normRecords pre) v)
              (choicesOf (normRecords post) v)))
          = some (v, deltasFor (choicesOf (normRecords pre) v)
              (choicesOf (normRecords post) v))
        have hT := deltasFor_hasTarget hne
        rw [hT]
        rw [if_neg (by simp)]
        rw [if_neg hne]
  · intro preC postC c a b
    exact deltasFor_mem

/-- C7 witness: a voter whose choice `"27"` goes from 50 to 0 between the two
snapshots is reported with exactly the triple (27, 50, 0). -/
theorem C7_witness :
    ("0xv", [((27 : ℤ), (50 : ℚ), (0 : ℚ))]) ∈
      reportDeltas [⟨"0xV", [("27", (50 : ℚ))]⟩] [⟨"0xV", [("27", (0 : ℚ))]⟩] :=
  (C7_delta_report.1 [⟨"0xV", [("27", (50 : ℚ))]⟩] [⟨"0xV", [("27", (0 : ℚ))]⟩]
    "0xv" [((27 : ℤ), (50 : ℚ), (0 : ℚ))]).mpr (by decide)

/-! ### Claim C8 -/

/-- C8: whenever the disappeared-voters report completes (no `int()` crash),
a voter appears in it if and only if it is present (after lower-casing) in
the normalized pre snapshot, absent from the normalized post snapshot, and
its pre-snapshot `choice` mapping holds at least one key equal to the string
form of a tracked choice ID; and the entries reported for such a voter are
exactly the pairs of its pre-snapshot `choice` mapping whose key parses to a
tracked choice ID, with their full pre-snapshot amounts. -/
theorem C8_disappeared_report (pre post : List VoteRecord)
    (rep : List (String × List (String × ℚ)))
    (h : reportDisappeared pre post = some rep) :
    (∀ (v : String) (es : List (String × ℚ)),
      (v, es) ∈ rep ↔
        (v ∈ (normRecords pre).map Prod.fst ∧ v ∉ (normRecords post).map Prod.fst ∧
         (∃ c ∈ TARGET_CHOICES, choiceStr c ∈ (choicesOf (normRecords pre) v).map Prod.fst) ∧
         collectTracked (choicesOf (normRecords pre) v) = some es)) ∧
    (∀ (v : String) (es : List (String × ℚ)) (q : String × ℚ),
      (v, es) ∈ rep →
        (q ∈ es ↔ (q ∈ choicesOf (normRecords pre) v ∧
          ∃ n, parseIntM q.1 = some n ∧ n ∈ TARGET_CHOICES))) := by
  have hmem := optTraverse_mem h
  have key : ∀ (v : String) (es : List (String × ℚ)),
      (v, es) ∈ rep ↔ (v ∈ sortStr (relevantDisappeared pre post) ∧
        collectTracked (choicesOf (normRecords pre) v) = some es) := by
    intro v es
    rw [hmem (v, es)]
    constructor
    · rintro ⟨w, hw, hf⟩
      have hf2 : (collectTracked (choicesOf (normRecords pre) w)).map
          (fun es => (w, es)) = some (v, es) := hf
      cases hc : collectTracked (choicesOf (normRecords pre) w) with
      | none =>
        rw [hc] at hf2
        exact Option.noConfusion hf2
      | some tl =>
        rw [hc] at hf2
        have hf3 : ((w, tl) : String × List (String × ℚ)) = (v, es) :=
          Option.some.inj hf2
        injection hf3 with h4 h5
        subst h4
        subst h5
        exact ⟨hw, hc⟩
    · rintro ⟨hw, hcol⟩
      refine ⟨v, hw, ?_⟩
      show (collectTracked (choicesOf (normRecords pre) v)).map (fun es => (v, es))
        = some (v, es)
      rw [hcol]
      rfl
  have key2 : ∀ v : String,
      v ∈ sortStr (relevantDisappeared pre post) ↔
        (v ∈ (normRecords pre).map Prod.fst ∧ v ∉ (normRecords post).map Prod.fst ∧
         ∃ c ∈ TARGET_CHOICES, choiceStr c ∈ (choicesOf (normRecords pre) v).map Prod.fst) := by
    intro v
    rw [mem_sortStr, relevantDisappeared_mem, hasTargetKey_iff]
  constructor
  · intro v es
    rw [key v es, key2 v]
    tauto
  · intro v es q hq
    rw [key v es] at hq
    exact collectTracked_mem hq.2 q

/-- C8 witness: a voter present pre-delegation with `choice = {"139": 100}`
and absent post-delegation is reported, with `Choice 139: 100`. -/
theorem C8_witness :
    reportDisappeared [⟨"0xA", [("139", (100 : ℚ))]⟩] [] =
      some [("0xa", [("139", (100 : ℚ))])] ∧
    ("0xa", [("139", (100 : ℚ))]) ∈ [(("0xa" : String), [(("139" : String), (100 : ℚ))])] :=
  ⟨by decide,
    ((C8_disappeared_report [⟨"0xA", [("139", (100 : ℚ))]⟩] []
        [("0xa", [("139", (100 : ℚ))])] (by decide)).1
      "0xa" [("139", (100 : ℚ))]).mpr (by decide)⟩

/-! ### Claim C10 -/

/-- C10: a disappeared voter retained for reporting (it holds the tracked key
`"139"`) whose `choice` mapping also holds the unparseable key `"abc"` makes
the report loop hit `int("abc")` and abort (`none`); and the reporting step
is total whenever every choice key of every retained voter parses as an
integer. -/
theorem C10_reporting_crash :
    reportDisappeared [⟨"0xA", [("139", (100 : ℚ)), ("abc", (1 : ℚ))]⟩] [] = none ∧
    (∀ (pre post : List VoteRecord),
      (∀ v ∈ relevantDisappeared pre post,
        ∀ q ∈ choicesOf (normRecords pre) v, (parseIntM q.1).isSome = true) →
      (reportDisappeared pre post).isSome = true) := by
  refine ⟨by decide, ?_⟩
  intro pre post h
  unfold reportDisappeared
  apply optTraverse_isSome
  intro v hv
  rw [mem_sortStr] at hv
  obtain ⟨es, hes⟩ := Option.isSome_iff_exists.mp (collectTracked_isSome (h v hv))
  show ((collectTracked (choicesOf (normRecords pre) v)).map (fun es => (v, es))).isSome
    = true
  rw [hes]
  rfl

/-- C10 witness: the totality part instantiated on a retained voter all of
whose choice keys are integer strings. -/
theorem C10_witness :
    (reportDisappeared [⟨"0xB", [("139", (100 : ℚ))]⟩] []).isSome = true :=
  C10_reporting_crash.2 [⟨"0xB", [("139", (100 : ℚ))]⟩] [] (by decide)
